import Mathlib

/-!
Shallow embedding of `thunder/rdds/imageblocks.py`: partitioning of a
multi-timepoint image volume into spatial blocks, temporal reassembly of
blocks, reconstruction of per-pixel time series, binary-record
serialization, and the block-size estimator.

Conventions of the embedding:
* Python `slice` objects become `PySlice` (each of start/stop/step possibly
  `none`).
* numpy arrays become `NdArray`: a shape together with a total function
  from index lists to values.  Only the values at indices inside the shape
  are meaningful; numpy's dense storage is abstracted away.
* A per-pixel series (the squeeze of a `[T] ++ [1,1,...]`-shaped slice) is
  represented as the `List` of its values along the temporal axis.
* Python exceptions are modelled by `Option`: `none` means the call raises.
* Real-valued division on Python floats is modelled by exact division in
  `ℚ`; the quantities involved in the estimator are ratios of small
  integers, where Python float arithmetic is exact as well.
-/

/-- Python slice object: `slice(start, stop, step)`, each possibly None. -/
structure PySlice where
  start : Option Nat
  stop : Option Nat
  step : Option Nat
  deriving DecidableEq

/-- Python `slice(None)`, i.e. `slice(None, None, None)`. -/
def slNone : PySlice := ⟨none, none, none⟩

/-- Abbreviation for the fully concrete unit-step slices built by this module. -/
def mkSlice (a b : Nat) : PySlice := ⟨some a, some b, some 1⟩

/-- Python `sl.start`, defaulted to 0 as numpy normalization does. -/
def PySlice.startD (sl : PySlice) : Nat := sl.start.getD 0

/-- Python `sl.stop`, defaulted to the dimension size as numpy normalization does. -/
def PySlice.stopD (sl : PySlice) (d : Nat) : Nat := sl.stop.getD d

/-- Python `sl.step`, defaulted to 1 as numpy normalization does. -/
def PySlice.stepD (sl : PySlice) : Nat := sl.step.getD 1

/-- Dense n-dimensional array: a shape and a total valuation of index lists.
Only indices componentwise below `shape` are meaningful. -/
structure NdArray (α : Type) where
  shape : List Nat
  data : List Nat → α

/-- numpy `zeros(shape, dtype)`. -/
def NdArray.zeros {α : Type} [Zero α] (shape : List Nat) : NdArray α :=
  ⟨shape, fun _ => 0⟩

/-- Number of indices selected by a slice along a dimension of size `d`
(numpy basic-slicing length for non-negative bounds and positive step). -/
def sliceLength (sl : PySlice) (d : Nat) : Nat :=
  let st := min sl.startD d
  let en := min (sl.stopD d) d
  let sp := sl.stepD
  if sp = 0 then 0 else (en - st + sp - 1) / sp

/-- numpy basic slicing `a[sls]` with one slice per axis.  The local index
`l` along an axis maps to absolute index `start + l * step`; the slices
produced by this module always lie inside the array, so no clamping of
`start` is needed on the value side. -/
def NdArray.sliceArr {α : Type} (a : NdArray α) (sls : List PySlice) : NdArray α :=
  ⟨(sls.zip a.shape).map (fun p => sliceLength p.1 p.2),
   fun idx => a.data ((idx.zip sls).map (fun p => p.2.startD + p.1 * p.2.stepD))⟩

/-- numpy `expand_dims(a, axis=0)`. -/
def NdArray.expandDims0 {α : Type} (a : NdArray α) : NdArray α :=
  ⟨1 :: a.shape, fun idx => a.data idx.tail⟩

/-- The positional metadata record `ImageBlocksGroupingKey(origshape, origslices)`. -/
structure ImageBlocksGroupingKey where
  origshape : List Nat
  origslices : List PySlice
  deriving DecidableEq

/-- Python property `temporalKey`: start of the leading (temporal) slice.
Keys built by this module always have a nonempty `origslices`, so the
`headD` default is never used. -/
def ImageBlocksGroupingKey.temporalKey (k : ImageBlocksGroupingKey) : Nat :=
  (k.origslices.headD slNone).startD

/-- Python property `spatialKey`: tuple of the starts of the spatial slices.
Every key built by this module has concrete starts on its spatial slices,
so the `startD` default is never used. -/
def ImageBlocksGroupingKey.spatialKey (k : ImageBlocksGroupingKey) : List Nat :=
  k.origslices.tail.map (fun sl => sl.startD)

/-- Loop body of `__generateSlices` for one dimension: `n` remaining block
indices, current start `st`, remaining blocks owed an extra unit `rem`.
Mirrors the Python loop: `en = st + blocksize (+1 while blockrem > 0)`,
emit `slice(st, min(en, dimsize), 1)`, then `st = en`.  Python decrements
`blockrem` only when it is positive; on `Nat`, `rem - 1` agrees with that. -/
def genDimSlicesGo (dimsize blocksize : Nat) : Nat → Nat → Nat → List PySlice
  | 0, _, _ => []
  | n + 1, st, rem =>
    let en := st + blocksize + (if 0 < rem then 1 else 0)
    ⟨some st, some (min en dimsize), some 1⟩ :: genDimSlicesGo dimsize blocksize n en (rem - 1)

/-- Slices of one dimension in `ImageBlocksPartitioningStrategy.__generateSlices`:
`blocksize = dimsize / nsplits` (integer division), `blockrem = dimsize % nsplits`. -/
def genDimSlices (nsplits dimsize : Nat) : List PySlice :=
  genDimSlicesGo dimsize (dimsize / nsplits) nsplits 0 (dimsize % nsplits)

/-- `ImageBlocksPartitioningStrategy.__generateSlices`: per-dimension slice lists. -/
def generateSlices (splitsPerDim dims : List Nat) : List (List PySlice) :=
  (splitsPerDim.zip dims).map (fun p => genDimSlices p.1 p.2)

/-- Cartesian product of lists in `itertools.product` order (leftmost
factor varies slowest). -/
def listProd {α : Type} : List (List α) → List (List α)
  | [] => [[]]
  | xs :: rest => xs.flatMap (fun x => (listProd rest).map (fun l => x :: l))

/-- `ImageBlocksPartitioningStrategy.extractBlockFromImage`. -/
def extractBlockFromImage {α : Type} (imgary : NdArray α) (blockslices : List PySlice)
    (timepoint numtimepoints : Nat) : ImageBlocksGroupingKey × NdArray α :=
  (⟨numtimepoints :: imgary.shape, mkSlice timepoint (timepoint + 1) :: blockslices⟩,
   (imgary.sliceArr blockslices).expandDims0)

/-- `ImageBlocksPartitioningStrategy.partitionFunction` applied to one
`(timepoint, image)` pair, with the strategy state (`self._slices`,
`self.nimages`) passed explicitly. -/
def partitionFunction {α : Type} (slices : List (List PySlice)) (totnumimages : Nat)
    (tpidx : Nat) (imgary : NdArray α) : List (ImageBlocksGroupingKey × NdArray α) :=
  (listProd slices).map (fun bs => extractBlockFromImage imgary bs tpidx totnumimages)

/-- numpy slice assignment `ary[targslices] = block` for the only form used
by `blockingFunction`: a slice on the leading (temporal) axis and
`slice(None)` on every trailing axis. -/
def setTemporalSlice {α : Type} (ary : NdArray α) (sl : PySlice) (block : NdArray α) :
    NdArray α :=
  ⟨ary.shape, fun idx =>
    match idx with
    | [] => ary.data []
    | t :: rest =>
      let T0 := ary.shape.headD 0
      let st := sl.startD
      let en := min (sl.stopD T0) T0
      if st ≤ t ∧ t < en then block.data ((t - st) :: rest) else ary.data (t :: rest)⟩

/-- Loop of `ImageBlocksPartitioningStrategy.blockingFunction`: the
accumulator holds `(ary, firstkey)` once the first element has been seen
(`None`/`none` before). -/
def blockingLoop {α : Type} [Zero α]
    (acc : Option (NdArray α × ImageBlocksGroupingKey)) :
    List (ImageBlocksGroupingKey × NdArray α) → Option (NdArray α × ImageBlocksGroupingKey)
  | [] => acc
  | (key, block) :: rest =>
    let p := match acc with
      | none => (NdArray.zeros (key.origshape.headD 0 :: block.shape.tail), key)
      | some q => q
    blockingLoop (some (setTemporalSlice p.1 (key.origslices.headD slNone) block, p.2)) rest

/-- `ImageBlocksPartitioningStrategy.blockingFunction` on one group of
`(key, block)` pairs.  On an empty group the Python code dereferences
`firstkey = None` (`firstkey.origslices` raises), modelled by `none`. -/
def blockingFunction {α : Type} [Zero α]
    (group : List (ImageBlocksGroupingKey × NdArray α)) :
    Option (ImageBlocksGroupingKey × NdArray α) :=
  match blockingLoop none group with
  | none => none
  | some (ary, firstkey) =>
    some (⟨firstkey.origshape, slNone :: firstkey.origslices.tail⟩, ary)

/-- Python `xrange(start, stop, step)` for a positive step (Python raises
on step 0; this module only ever uses step 1). -/
def xrangeList (start stop step : Nat) : List Nat :=
  if step = 0 then [] else List.range' start ((stop - start + step - 1) / step) step

/-- One iterator of `ImageBlocks._get_range_iterators`: the indices of a
slice normalized against `shape[sliceidx]`. -/
def sliceIndices (sl : PySlice) (shapedim : Nat) : List Nat :=
  xrangeList sl.startD (sl.stopD shapedim) sl.stepD

/-- `ImageBlocks._get_range_iterators`. -/
def getRangeIterators (slices : List PySlice) (shape : List Nat) : List (List Nat) :=
  (slices.zip shape).map (fun p => sliceIndices p.1 p.2)

/-- Local (block-relative) index for an absolute coordinate, from
`toSeriesIter`: `idx - origslice.start` unless the slice is `slice(None)`.
For every key built by this module the spatial slices have concrete
starts, so the non-`slNone` branch always finds a `some` start. -/
def localStart (idx : Nat) (sl : PySlice) : Nat :=
  if sl = slNone then idx else idx - sl.startD

/-- `ImageBlocks.toSeriesIter`: for every spatial coordinate covered by the
key's spatial slices (iterated with the rightmost dimension varying
slowest, exactly as `itertools.product(*reversed(rangeiters))`), yield the
absolute coordinate and the 1-d series over the temporal axis.  The series
`ary[slices].squeeze()` is represented by the list of its `ary.shape[0]`
values along axis 0. -/
def toSeriesIter {α : Type} (key : ImageBlocksGroupingKey) (ary : NdArray α) :
    List (List Nat × List α) :=
  let spatialIters := (getRangeIterators key.origslices key.origshape).tail
  (listProd spatialIters.reverse).map (fun idxSeq =>
    let coord := idxSeq.reverse
    let localIdx := (coord.zip key.origslices.tail).map (fun p => localStart p.1 p.2)
    (coord, (List.range (ary.shape.headD 0)).map (fun t => ary.data (t :: localIdx))))

/-- Zero-pad a string on the left to width `w`, as the C conversions
`%02d` and `%05g` do for integer values that fit in the width. -/
def zfill (w : Nat) (s : String) : String :=
  String.mk (List.replicate (w - s.length) '0') ++ s

/-- Python `sep.join(strings)`. -/
def strJoin (sep : String) : List String → String
  | [] => ""
  | [a] => a
  | a :: b :: rest => a ++ sep ++ strJoin sep (b :: rest)

/-- `ImageBlocks.getBinarySeriesNameForKey`.  The C format `%05g` prints an
integer below 10^6 exactly (no exponent form), zero-padded to width 5;
`%02d` likewise with width 2.  All coordinates reached by the claims are
below 10^5 and all dimension indices below 10^2, where this embedding
matches the Python formatting exactly. -/
def getBinarySeriesNameForKey (blockKey : List Nat) : String :=
  strJoin ("-")
    ((blockKey.enum.map
      (fun p => "key" ++ zfill 2 (Nat.repr p.1) ++ "_" ++ zfill 5 (Nat.repr p.2))).reverse)

/-- One token of the binary record stream of `toBinarySeries`: a
coordinate packed as a signed 16-bit integer, or one raw series element
(`series.tostring()` is the concatenation of its elements' bytes in native
order; byte-level layout inside a token is abstracted away). -/
inductive BinChunk (α : Type) : Type
  | coord (c : Nat) : BinChunk α
  | datum (v : α) : BinChunk α
  deriving DecidableEq

/-- The record-packing loop of `blockToBinarySeries`: `kp` is the
`keypacker` state (the arity of the `struct.Struct` once created).
`struct.pack` raises `struct.error` when the arity does not match or a
value does not fit a signed 16-bit integer; the yielded coordinates are
non-negative, so only the upper bound 32767 can fail. -/
def packRecords {α : Type} : Option Nat → List (List Nat × List α) → Option (List (BinChunk α))
  | _, [] => some []
  | kp, (sk, series) :: rest =>
    let n := kp.getD sk.length
    if sk.length = n ∧ ∀ k ∈ sk, k ≤ 32767 then
      (packRecords (some n) rest).map
        (fun tl => (sk.map (fun k => BinChunk.coord k) ++ series.map (fun v => BinChunk.datum v)) ++ tl)
    else none

/-- `blockToBinarySeries` inside `ImageBlocks.toBinarySeries`: label plus
packed record stream for one `(key, block)` pair. -/
def blockToBinarySeries {α : Type} (key : ImageBlocksGroupingKey) (ary : NdArray α) :
    Option (String × List (BinChunk α)) :=
  (packRecords none (toSeriesIter key ary)).map
    (fun chunks => (getBinarySeriesNameForKey key.spatialKey ++ (".bin"), chunks))

/-- Loop of `_BlockMemoryAsSequence.indtosub`, processing dimensions from
the rightmost (the argument is `dims.reverse`).  The Python loop breaks
early once the budget `idx` reaches 0; continuing instead adds
`min (d - 1) 0 = 0` everywhere, which is the same result. -/
def indtosubGo : List Nat → Nat → List Nat
  | [], _ => []
  | d :: rest, idx =>
    let delta := min (d - 1) idx
    (1 + delta) :: indtosubGo rest (idx - delta)

/-- `_BlockMemoryAsSequence.indtosub`. -/
def indtosub (dims : List Nat) (idx : Nat) : List Nat :=
  (indtosubGo dims.reverse idx).reverse

/-- `_BlockMemoryAsSequence.__len__`: `sum([d-1 for d in dims]) + 1`. -/
def seqLen (dims : List Nat) : Nat := (dims.map (fun d => d - 1)).sum + 1

/-- `_BlockMemoryAsSequence.blockMemoryForSplits`: the average number of
cells in a block, `reduce(mul, [d / float(s) ...])`.  Python's `reduce`
without initializer raises on an empty list; the `foldl` initializer 1 is
only reachable for empty `dims`, which the theorems exclude. -/
def blockMemoryForSplits (dims sub : List Nat) : ℚ :=
  ((dims.zip sub).map (fun p => (p.1 : ℚ) / (p.2 : ℚ))).foldl (fun x y => x * y) 1

/-- `_BlockMemoryAsReversedSequence.__getitem__`: item `i` of the reversed
sequence, i.e. the base sequence at `len - (i + 1)`.  The `IndexError`
check of `_reverseIdx` never fires at the call sites modelled here (bisect
probes indices below `len`, and the final lookup index is clamped below
`len`). -/
def reversedGetItem (dims : List Nat) (i : Nat) : ℚ :=
  blockMemoryForSplits dims (indtosub dims (seqLen dims - (i + 1)))

/-- The `while lo < hi` loop of `bisect.bisect_left` over an abstract
`__getitem__`.  `fuel` bounds the number of iterations; `hi - lo` initial
fuel always suffices because the interval shrinks every iteration. -/
def bisectLeftGo (f : Nat → ℚ) (x : ℚ) : Nat → Nat → Nat → Nat
  | 0, lo, _ => lo
  | fuel + 1, lo, hi =>
    if lo < hi then
      let mid := (lo + hi) / 2
      if f mid < x then bisectLeftGo f x fuel (mid + 1) hi
      else bisectLeftGo f x fuel lo mid
    else lo

/-- `bisect.bisect_left(seq, x)` over a sequence of length `len` given by `f`. -/
def bisectLeft (f : Nat → ℚ) (x : ℚ) (len : Nat) : Nat :=
  bisectLeftGo f x len 0 len

/-- Core of `ImageBlocksPartitioningStrategy.generateFromBlockSize` after
the target has been normalized to `x = blockSize / float(minseriessize)`:
bisect over the reversed block-memory sequence, clamp an off-the-end
result to the last index, and convert back to a splits tuple. -/
def generateFromBlockSizeAux (x : ℚ) (dims : List Nat) : List Nat :=
  let L := seqLen dims
  let t0 := bisectLeft (reversedGetItem dims) x L
  let t1 := if t0 = L then t0 - 1 else t0
  indtosub dims (L - (t1 + 1))

/-- `ImageBlocksPartitioningStrategy.generateFromBlockSize`, with
`minseriessize = nimages * dtype(datatype).itemsize` passed via its two
factors and the byte-size target already numeric. -/
def generateFromBlockSize (blockSize : ℚ) (dims : List Nat) (nimages itemsize : Nat) :
    List Nat :=
  generateFromBlockSizeAux (blockSize / ((nimages * itemsize : Nat) : ℚ)) dims

/-- Product of a list of split counts (`reduce(lambda x, y: x * y, ..., 1)`). -/
def prodNat (l : List Nat) : Nat := l.foldl (fun x y => x * y) 1

/-- The full Images-to-Series pipeline on explicit data, composing the
per-record callables exactly as `thunder` hands them to Spark: extract
blocks from every timepoint (`partitionFunction`), group the pairs by
`spatialKey` (Spark `groupByKey`, modelled by filtering on each distinct
key), merge every group (`blockingFunction`) and enumerate the series
(`toSeriesIter`).  Every group is nonempty by construction, so the `none`
branch of `blockingFunction` is never taken. -/
def imagesToSeries {α : Type} [Zero α] (dims splitsPerDim : List Nat) (T : Nat)
    (vol : Nat → List Nat → α) : List (List Nat × List α) :=
  let slices := generateSlices splitsPerDim dims
  let allPairs := (List.range T).flatMap (fun t => partitionFunction slices T t ⟨dims, vol t⟩)
  let keys := (allPairs.map (fun p => p.1.spatialKey)).dedup
  keys.flatMap (fun k =>
    match blockingFunction (allPairs.filter (fun p => decide (p.1.spatialKey = k))) with
    | some q => toSeriesIter q.1 q.2
    | none => [])

/-! Derived notions used to state the claims (not part of the source). -/

/-- Start of the j-th slice of a dimension of size `d` split `n` ways, in
closed form: `j * (d / n) + min j (d % n)`. -/
def sStart (d n j : Nat) : Nat := j * (d / n) + min j (d % n)

/-- Start of the temporal slice of a key. -/
def tstartOf (k : ImageBlocksGroupingKey) : Nat := (k.origslices.headD slNone).startD

/-- End (exclusive) of the temporal slice of a key, normalized and clamped
against a temporal extent `T0` as the slice assignment does. -/
def tstopOf (T0 : Nat) (k : ImageBlocksGroupingKey) : Nat :=
  min ((k.origslices.headD slNone).stopD T0) T0

/-- The temporal slice of `k` covers row `t` of an accumulator with `T0` rows. -/
def tcovers (T0 : Nat) (k : ImageBlocksGroupingKey) (t : Nat) : Prop :=
  tstartOf k ≤ t ∧ t < tstopOf T0 k

instance (T0 : Nat) (k : ImageBlocksGroupingKey) (t : Nat) : Decidable (tcovers T0 k t) :=
  inferInstanceAs (Decidable (_ ∧ _))

/-- The temporal slices of two keys select disjoint row ranges. -/
def tdisjointOn (T0 : Nat) (k1 k2 : ImageBlocksGroupingKey) : Prop :=
  tstopOf T0 k1 ≤ tstartOf k2 ∨ tstopOf T0 k2 ≤ tstartOf k1

instance (T0 : Nat) (k1 k2 : ImageBlocksGroupingKey) : Decidable (tdisjointOn T0 k1 k2) :=
  inferInstanceAs (Decidable (_ ∨ _))

/-- The key produced by `blockingFunction` from the first key of a group. -/
def assembledKey (k : ImageBlocksGroupingKey) : ImageBlocksGroupingKey :=
  ⟨k.origshape, slNone :: k.origslices.tail⟩

/-- Decimal digits of a natural number, most significant first (the spec
side of the decimal-representation lemmas). -/
def specDigits (n : Nat) : List Char :=
  if n < 10 then [Nat.digitChar n]
  else specDigits (n / 10) ++ [Nat.digitChar (n % 10)]
  termination_by n
  decreasing_by exact Nat.div_lt_self (by omega) (by omega)

/-- Two-digit zero-padded decimal rendering, written by digit extraction
(the spec's reading of a two-digit zero-padded index). -/
def twoDigitsS (i : Nat) : String :=
  String.mk [Nat.digitChar (i / 10 % 10), Nat.digitChar (i % 10)]

/-- Five-digit zero-padded decimal rendering, written by digit extraction
(the spec's reading of a five-digit zero-padded coordinate). -/
def fiveDigitsS (k : Nat) : String :=
  String.mk [Nat.digitChar (k / 10000 % 10), Nat.digitChar (k / 1000 % 10),
    Nat.digitChar (k / 100 % 10), Nat.digitChar (k / 10 % 10), Nat.digitChar (k % 10)]

/-- Label as the spec words it: components indexed from the leftmost
spatial dimension, rightmost dimension printed first, joined by a dash. -/
def labelSpecGo (i : Nat) : List Nat → String
  | [] => ""
  | [k] => "key" ++ twoDigitsS i ++ "_" ++ fiveDigitsS k
  | k :: k2 :: rest =>
    labelSpecGo (i + 1) (k2 :: rest) ++ ("-") ++ ("key" ++ twoDigitsS i ++ "_" ++ fiveDigitsS k)

/-- The properties claimed of the slice list of one dimension of size `d`
split `n` ways: `n` slices, starting at 0, contiguous, pairwise
non-overlapping, covering exactly the interval below `d`, the first
`d % n` of length `d / n + 1` and the rest of length `d / n`, all lengths
within 1 of each other. -/
def dimSlicesSpec (n d : Nat) (sl : List PySlice) : Prop :=
  sl.length = n ∧
  (sl.getD 0 slNone).startD = 0 ∧
  (∀ j, j + 1 < n → (sl.getD j slNone).stopD d = (sl.getD (j + 1) slNone).startD) ∧
  (∀ j k, j < n → k < n → j ≠ k → ∀ x,
    ((sl.getD j slNone).startD ≤ x ∧ x < (sl.getD j slNone).stopD d) →
    ¬ ((sl.getD k slNone).startD ≤ x ∧ x < (sl.getD k slNone).stopD d)) ∧
  (∀ x, x < d ↔ ∃ j, j < n ∧ (sl.getD j slNone).startD ≤ x ∧ x < (sl.getD j slNone).stopD d) ∧
  (∀ j, j < d % n → (sl.getD j slNone).stopD d - (sl.getD j slNone).startD = d / n + 1) ∧
  (∀ j, d % n ≤ j → j < n → (sl.getD j slNone).stopD d - (sl.getD j slNone).startD = d / n) ∧
  (∀ j k, j < n → k < n →
    (sl.getD j slNone).stopD d - (sl.getD j slNone).startD ≤
      ((sl.getD k slNone).stopD d - (sl.getD k slNone).startD) + 1)

/-- Concrete key for timepoint 0 used to exercise the assembler: a volume
of 3 timepoints, one spatial dimension of size 2, a full spatial slice. -/
def gapKey0 : ImageBlocksGroupingKey := ⟨[3, 2], [mkSlice 0 1, mkSlice 0 2]⟩

/-- Concrete key for timepoint 2 with the same spatial slice as `gapKey0`
(timepoint 1 is absent from the group). -/
def gapKey2 : ImageBlocksGroupingKey := ⟨[3, 2], [mkSlice 2 3, mkSlice 0 2]⟩

/-- Concrete single-timepoint block of value 1. -/
def gapBlock1 : NdArray Int := ⟨[1, 2], fun _ => 1⟩

/-- Concrete single-timepoint block of value 2. -/
def gapBlock2 : NdArray Int := ⟨[1, 2], fun _ => 2⟩

/-- Concrete key for the serializer witness: 2 timepoints, one spatial
dimension of size 3, block covering indices 1 and 2. -/
def binKeyW : ImageBlocksGroupingKey := ⟨[2, 3], [slNone, mkSlice 1 3]⟩

/-- Concrete assembled block for the serializer witness. -/
def binAryW : NdArray Int := ⟨[2, 2], fun _ => 7⟩

/-- Concrete key whose only spatial coordinate (39999) does not fit a
signed 16-bit integer. -/
def binKeyBadW : ImageBlocksGroupingKey := ⟨[1, 40000], [slNone, mkSlice 39999 40000]⟩

/-- Concrete assembled block for the out-of-range serializer witness. -/
def binAryBadW : NdArray Int := ⟨[1, 1], fun _ => 0⟩

/-- Concrete volume for the round-trip witness: value 4*t + x at coordinate
[x] of timepoint t. -/
def roundVolW (t : Nat) (idx : List Nat) : Int := 4 * t + idx.headD 0

/-! Generic list helpers. -/

theorem forall₂_getD {α β : Type} {R : α → β → Prop} (a : α) (b : β)
    {l1 : List α} {l2 : List β} (h : List.Forall₂ R l1 l2) :
    ∀ i, i < l2.length → R (l1.getD i a) (l2.getD i b) := by
  induction h with
  | nil => intro i hi; simp at hi
  | cons hr _ ih =>
    intro i hi
    cases i with
    | zero => simpa using hr
    | succ n => simpa using ih n (by simpa using hi)

/-! Properties of `indtosub`. -/

theorem indtosubGo_length (ds : List Nat) (idx : Nat) :
    (indtosubGo ds idx).length = ds.length := by
  induction ds generalizing idx with
  | nil => rfl
  | cons d r ih => simp [indtosubGo, ih]

theorem indtosubGo_bounds (ds : List Nat) (idx : Nat) (h : ∀ d ∈ ds, 0 < d) :
    List.Forall₂ (fun s d => 1 ≤ s ∧ s ≤ d) (indtosubGo ds idx) ds := by
  induction ds generalizing idx with
  | nil => exact List.Forall₂.nil
  | cons d r ih =>
    have hd : 0 < d := h d (by simp)
    simp only [indtosubGo]
    exact List.Forall₂.cons (by omega) (ih _ (fun x hx => h x (by simp [hx])))

theorem indtosub_bounds (dims : List Nat) (idx : Nat) (hpos : ∀ d ∈ dims, 0 < d) :
    List.Forall₂ (fun s d => 1 ≤ s ∧ s ≤ d) (indtosub dims idx) dims := by
  have hrev : ∀ d ∈ dims.reverse, 0 < d := fun d hd => hpos d (List.mem_reverse.mp hd)
  have hf := indtosubGo_bounds dims.reverse idx hrev
  simpa [indtosub] using List.forall₂_reverse_iff.mpr hf

/-- C9: for every tuple of positive dims and every index (clamped or not),
`_BlockMemoryAsSequence.indtosub` returns a list of the same length as
`dims` whose entries all satisfy `1 ≤ sub[i] ≤ dims[i]`, i.e. a valid
SplitSpec. -/
theorem indtosub_valid_splitspec (dims : List Nat) (idx : Nat) (hpos : ∀ d ∈ dims, 0 < d) :
    (indtosub dims idx).length = dims.length ∧
      ∀ i ∈ List.range dims.length,
        1 ≤ (indtosub dims idx).getD i 0 ∧ (indtosub dims idx).getD i 0 ≤ dims.getD i 0 := by
  have hf := indtosub_bounds dims idx hpos
  refine ⟨hf.length_eq, fun i hi => ?_⟩
  exact forall₂_getD 0 0 hf i (List.mem_range.mp hi)

/-- C9 witness: a concrete out-of-range index on dims (3,4) still yields a
valid SplitSpec. -/
theorem indtosub_valid_splitspec_witness :
    (indtosub [3, 4] 100).length = [3, 4].length ∧
      ∀ i ∈ List.range [3, 4].length,
        1 ≤ (indtosub [3, 4] 100).getD i 0 ∧ (indtosub [3, 4] 100).getD i 0 ≤ [3, 4].getD i 0 :=
  indtosub_valid_splitspec [3, 4] 100 (by decide)

/-- C8: `blockingFunction` on an empty group fails (the Python code
dereferences `firstkey = None`, raising; modelled by `none`). -/
theorem blockingFunction_empty_group (α : Type) [Zero α] :
    blockingFunction ([] : List (ImageBlocksGroupingKey × NdArray α)) = none := rfl

/-- C8 witness at a concrete element type. -/
theorem blockingFunction_empty_group_witness :
    blockingFunction ([] : List (ImageBlocksGroupingKey × NdArray Int)) = none :=
  blockingFunction_empty_group Int

/-! Closed form of the generated slices. -/

theorem getD_map_lt {α β : Type} (f : α → β) (l : List α) (i : Nat) (h : i < l.length)
    (d1 : α) (d2 : β) : (l.map f).getD i d2 = f (l.getD i d1) := by
  induction l generalizing i with
  | nil => simp at h
  | cons x xs ih =>
    cases i with
    | zero => rfl
    | succ n => simpa using ih n (by simpa using h)

theorem getD_range (n j : Nat) (h : j < n) (d : Nat) : (List.range n).getD j d = j := by
  rw [List.getD_eq_getElem _ _ (by simpa using h)]
  exact List.getElem_range j _

theorem genDimSlicesGo_eq (dimsize blocksize : Nat) :
    ∀ (n st rem : Nat),
      genDimSlicesGo dimsize blocksize n st rem =
        (List.range n).map (fun j =>
          PySlice.mk (some (st + j * blocksize + min j rem))
            (some (min (st + (j + 1) * blocksize + min (j + 1) rem) dimsize)) (some 1)) := by
  intro n
  induction n with
  | zero => intro st rem; rfl
  | succ m ih =>
    intro st rem
    have hmin1 : (if 0 < rem then 1 else 0) = min 1 rem := by split <;> omega
    rw [List.range_succ_eq_map]
    simp only [genDimSlicesGo, hmin1, List.map_cons, List.map_map, ih]
    congr 1
    · simp only [PySlice.mk.injEq, Option.some.injEq]
      refine ⟨by omega, by omega, trivial⟩
    · refine List.map_congr_left (fun j hj => ?_)
      simp only [Function.comp, PySlice.mk.injEq, Option.some.injEq, Nat.succ_eq_add_one,
        Nat.add_mul, Nat.one_mul]
      refine ⟨by omega, by omega, trivial⟩

theorem sStart_le_dim (d n j : Nat) (h1 : 1 ≤ n) (hnd : n ≤ d) (hj : j ≤ n) :
    sStart d n j ≤ d := by
  unfold sStart
  calc j * (d / n) + min j (d % n) ≤ n * (d / n) + d % n :=
        Nat.add_le_add (Nat.mul_le_mul_right _ hj) (Nat.min_le_right _ _)
    _ = d := Nat.div_add_mod d n

theorem genDimSlices_eq (n d : Nat) (h1 : 1 ≤ n) (hnd : n ≤ d) :
    genDimSlices n d =
      (List.range n).map (fun j => mkSlice (sStart d n j) (sStart d n (j + 1))) := by
  unfold genDimSlices
  rw [genDimSlicesGo_eq]
  refine List.map_congr_left (fun j hj => ?_)
  have hj2 : j < n := List.mem_range.mp hj
  have hle : (j + 1) * (d / n) + min (j + 1) (d % n) ≤ d := sStart_le_dim d n (j + 1) h1 hnd hj2
  simp only [mkSlice, sStart, PySlice.mk.injEq, Option.some.injEq]
  refine ⟨by omega, by omega, trivial⟩

theorem sStart_zero (d n : Nat) : sStart d n 0 = 0 := by simp [sStart]

theorem sStart_full (d n : Nat) (h1 : 1 ≤ n) (hnd : n ≤ d) : sStart d n n = d := by
  have hmod : d % n < n := Nat.mod_lt _ (by omega)
  have := Nat.div_add_mod d n
  unfold sStart
  have hmin : min n (d % n) = d % n := by omega
  rw [hmin]
  omega

theorem sStart_succ (d n j : Nat) :
    sStart d n (j + 1) = sStart d n j + d / n + (if j < d % n then 1 else 0) := by
  have h : min (j + 1) (d % n) = min j (d % n) + (if j < d % n then 1 else 0) := by
    split <;> omega
  unfold sStart
  rw [Nat.succ_mul, h]
  ring

theorem sStart_lt_succ (d n j : Nat) (h1 : 1 ≤ n) (hnd : n ≤ d) :
    sStart d n j < sStart d n (j + 1) := by
  have hq : 1 ≤ d / n := (Nat.one_le_div_iff (by omega)).mpr hnd
  rw [sStart_succ]
  split <;> omega

theorem sStart_mono (d n : Nat) (h1 : 1 ≤ n) (hnd : n ≤ d) :
    ∀ {j k : Nat}, j ≤ k → sStart d n j ≤ sStart d n k := by
  intro j k hjk
  induction k with
  | zero =>
    have hz : j = 0 := by omega
    subst hz
    exact le_refl _
  | succ m ih =>
    rcases Nat.lt_or_ge j (m + 1) with h | h
    · exact le_trans (ih (by omega)) (le_of_lt (sStart_lt_succ d n m h1 hnd))
    · have he : j = m + 1 := by omega
      subst he
      exact le_refl _

theorem sStart_locate (d n x : Nat) (h1 : 1 ≤ n) (hnd : n ≤ d) (hx : x < d) :
    ∃ j, j < n ∧ sStart d n j ≤ x ∧ x < sStart d n (j + 1) ∧
      ∀ k, k < n → sStart d n k ≤ x → x < sStart d n (k + 1) → k = j := by
  have hP0 : sStart d n 0 ≤ x := by rw [sStart_zero]; exact Nat.zero_le x
  have hPj : sStart d n (Nat.findGreatest (fun k => sStart d n k ≤ x) n) ≤ x :=
    Nat.findGreatest_spec (P := fun k => sStart d n k ≤ x) (Nat.zero_le n) hP0
  have hjn : Nat.findGreatest (fun k => sStart d n k ≤ x) n ≤ n :=
    Nat.findGreatest_le n
  have hjlt : Nat.findGreatest (fun k => sStart d n k ≤ x) n < n := by
    rcases Nat.lt_or_ge (Nat.findGreatest (fun k => sStart d n k ≤ x) n) n with h | h
    · exact h
    · exfalso
      have he : Nat.findGreatest (fun k => sStart d n k ≤ x) n = n := by omega
      rw [he, sStart_full d n h1 hnd] at hPj
      omega
  have hnotP : ¬ sStart d n (Nat.findGreatest (fun k => sStart d n k ≤ x) n + 1) ≤ x :=
    Nat.findGreatest_is_greatest (P := fun k => sStart d n k ≤ x) (n := n)
      (k := Nat.findGreatest (fun k => sStart d n k ≤ x) n + 1) (by omega) (by omega)
  refine ⟨Nat.findGreatest (fun k => sStart d n k ≤ x) n, hjlt, hPj, by omega, ?_⟩
  intro k hk hks hke
  rcases Nat.lt_trichotomy k (Nat.findGreatest (fun k => sStart d n k ≤ x) n) with h | h | h
  · exfalso
    have hmo : sStart d n (k + 1) ≤ sStart d n (Nat.findGreatest (fun k => sStart d n k ≤ x) n) :=
      sStart_mono d n h1 hnd (by omega)
    omega
  · exact h
  · exfalso
    have hmo : sStart d n (Nat.findGreatest (fun k => sStart d n k ≤ x) n + 1) ≤
        sStart d n k := sStart_mono d n h1 hnd (by omega)
    omega

theorem getD_zip_lt {α β : Type} (l1 : List α) (l2 : List β) (i : Nat)
    (h1 : i < l1.length) (h2 : i < l2.length) (d1 : α) (d2 : β) :
    (l1.zip l2).getD i (d1, d2) = (l1.getD i d1, l2.getD i d2) := by
  induction l1 generalizing l2 i with
  | nil => simp at h1
  | cons x xs ih =>
    cases l2 with
    | nil => simp at h2
    | cons y ys =>
      cases i with
      | zero => rfl
      | succ m => simpa using ih ys m (by simpa using h1) (by simpa using h2)

theorem mkSlice_startD (a b : Nat) : (mkSlice a b).startD = a := rfl

theorem mkSlice_stopD (a b d : Nat) : (mkSlice a b).stopD d = b := rfl

theorem mkSlice_stepD (a b : Nat) : (mkSlice a b).stepD = 1 := rfl

theorem generateSlices_getD (splits dims : List Nat) (i : Nat)
    (hlen : splits.length = dims.length) (hi : i < dims.length) :
    (generateSlices splits dims).getD i [] =
      genDimSlices (splits.getD i 0) (dims.getD i 0) := by
  unfold generateSlices
  rw [getD_map_lt _ _ i (by rw [List.length_zip]; omega) (0, 0)]
  rw [getD_zip_lt _ _ i (by omega) hi]

theorem generateSlices_slice (splits dims : List Nat) (i j : Nat)
    (hlen : splits.length = dims.length) (hi : i < dims.length)
    (h1 : 1 ≤ splits.getD i 0) (hd : splits.getD i 0 ≤ dims.getD i 0)
    (hj : j < splits.getD i 0) :
    ((generateSlices splits dims).getD i []).getD j slNone =
      mkSlice (sStart (dims.getD i 0) (splits.getD i 0) j)
        (sStart (dims.getD i 0) (splits.getD i 0) (j + 1)) := by
  rw [generateSlices_getD splits dims i hlen hi, genDimSlices_eq _ _ h1 hd]
  rw [getD_map_lt _ _ j (by simpa using hj) 0]
  rw [getD_range _ j hj]

theorem generateSlices_length (splits dims : List Nat) (i : Nat)
    (hlen : splits.length = dims.length) (hi : i < dims.length)
    (h1 : 1 ≤ splits.getD i 0) (hd : splits.getD i 0 ≤ dims.getD i 0) :
    ((generateSlices splits dims).getD i []).length = splits.getD i 0 := by
  rw [generateSlices_getD splits dims i hlen hi, genDimSlices_eq _ _ h1 hd]
  simp

/-- C2: for every valid `(dims, splitSpec)` and every dimension `i`, the
generated slice list for that dimension consists of exactly `splitSpec[i]`
contiguous, pairwise non-overlapping slices starting at 0, covering
`[0, dims[i])` exactly, the first `dims[i] % splitSpec[i]` of length
`dims[i] / splitSpec[i] + 1` and the rest of length `dims[i] / splitSpec[i]`,
so slice lengths differ by at most 1. -/
theorem generateSlices_partition (splits dims : List Nat) (i : Nat)
    (hlen : splits.length = dims.length) (hi : i < dims.length)
    (hv : ∀ j ∈ List.range dims.length,
      1 ≤ splits.getD j 0 ∧ splits.getD j 0 ≤ dims.getD j 0) :
    dimSlicesSpec (splits.getD i 0) (dims.getD i 0)
      ((generateSlices splits dims).getD i []) := by
  obtain ⟨h1, hd⟩ := hv i (List.mem_range.mpr hi)
  have hsl : ∀ j, j < splits.getD i 0 →
      ((generateSlices splits dims).getD i []).getD j slNone =
        mkSlice (sStart (dims.getD i 0) (splits.getD i 0) j)
          (sStart (dims.getD i 0) (splits.getD i 0) (j + 1)) :=
    fun j hj => generateSlices_slice splits dims i j hlen hi h1 hd hj
  have hsucc := sStart_succ (dims.getD i 0) (splits.getD i 0)
  have hq : 1 ≤ dims.getD i 0 / splits.getD i 0 :=
    (Nat.one_le_div_iff (by omega)).mpr hd
  refine ⟨generateSlices_length splits dims i hlen hi h1 hd, ?_, ?_, ?_, ?_, ?_, ?_, ?_⟩
  · rw [hsl 0 (by omega), mkSlice_startD, sStart_zero]
  · intro j hj
    rw [hsl j (by omega), hsl (j + 1) (by omega), mkSlice_stopD, mkSlice_startD]
  · intro j k hj hk hne x hx hkx
    rw [hsl j hj, mkSlice_startD, mkSlice_stopD] at hx
    rw [hsl k hk, mkSlice_startD, mkSlice_stopD] at hkx
    rcases Nat.lt_or_ge j k with h | h
    · have hmo : sStart (dims.getD i 0) (splits.getD i 0) (j + 1) ≤
          sStart (dims.getD i 0) (splits.getD i 0) k :=
        sStart_mono _ _ h1 hd (by omega)
      omega
    · have hjk : k < j := by omega
      have hmo : sStart (dims.getD i 0) (splits.getD i 0) (k + 1) ≤
          sStart (dims.getD i 0) (splits.getD i 0) j :=
        sStart_mono _ _ h1 hd (by omega)
      omega
  · intro x
    constructor
    · intro hx
      obtain ⟨j, hj, hs1, hs2, _⟩ := sStart_locate (dims.getD i 0) (splits.getD i 0) x h1 hd hx
      refine ⟨j, hj, ?_⟩
      rw [hsl j hj, mkSlice_startD, mkSlice_stopD]
      exact ⟨hs1, hs2⟩
    · rintro ⟨j, hj, hx1, hx2⟩
      rw [hsl j hj] at hx1 hx2
      rw [mkSlice_startD] at hx1
      rw [mkSlice_stopD] at hx2
      have hmo : sStart (dims.getD i 0) (splits.getD i 0) (j + 1) ≤
          sStart (dims.getD i 0) (splits.getD i 0) (splits.getD i 0) :=
        sStart_mono _ _ h1 hd (by omega)
      have hful := sStart_full (dims.getD i 0) (splits.getD i 0) h1 hd
      omega
  · intro j hjr
    have hjn : j < splits.getD i 0 := by
      have : dims.getD i 0 % splits.getD i 0 < splits.getD i 0 := Nat.mod_lt _ (by omega)
      omega
    rw [hsl j hjn, mkSlice_startD, mkSlice_stopD, hsucc j]
    split <;> omega
  · intro j hjr hjn
    rw [hsl j hjn, mkSlice_startD, mkSlice_stopD, hsucc j]
    split <;> omega
  · intro j k hj hk
    rw [hsl j hj, hsl k hk]
    simp only [mkSlice_startD, mkSlice_stopD]
    rw [hsucc j, hsucc k]
    split <;> split <;> omega

/-- C2 witness: the boundary example `dims[i] = 7, splitSpec[i] = 3`, whose
slice lengths are `(3, 2, 2)`. -/
theorem generateSlices_partition_witness :
    dimSlicesSpec ([3].getD 0 0) ([7].getD 0 0) ((generateSlices [3] [7]).getD 0 []) ∧
    ((generateSlices [3] [7]).getD 0 []).map (fun sl => sl.stopD 7 - sl.startD) = [3, 2, 2] :=
  ⟨generateSlices_partition [3] [7] 0 (by decide) (by decide) (by decide), by decide⟩

/-! Characterization of `blockingFunction`. -/

theorem NdArray.ext0 {α : Type} (x y : NdArray α) (h1 : x.shape = y.shape)
    (h2 : x.data = y.data) : x = y := by
  cases x; cases y; simp_all

theorem blockingLoop_some {α : Type} [Zero α]
    (g : List (ImageBlocksGroupingKey × NdArray α)) (a : NdArray α)
    (k : ImageBlocksGroupingKey) :
    blockingLoop (some (a, k)) g =
      some (g.foldl (fun x p => setTemporalSlice x (p.1.origslices.headD slNone) p.2) a, k) := by
  induction g generalizing a with
  | nil => rfl
  | cons p tl ih =>
    obtain ⟨key, block⟩ := p
    simp only [blockingLoop, List.foldl_cons]
    exact ih _

theorem blockingFunction_cons {α : Type} [Zero α] (k0 : ImageBlocksGroupingKey)
    (b0 : NdArray α) (rest : List (ImageBlocksGroupingKey × NdArray α)) :
    blockingFunction ((k0, b0) :: rest) =
      some (assembledKey k0,
        ((k0, b0) :: rest).foldl
          (fun a p => setTemporalSlice a (p.1.origslices.headD slNone) p.2)
          (NdArray.zeros (k0.origshape.headD 0 :: b0.shape.tail))) := by
  unfold blockingFunction assembledKey
  simp only [blockingLoop, List.foldl_cons]
  rw [blockingLoop_some]

theorem setTemporalSlice_shape {α : Type} (a : NdArray α) (sl : PySlice)
    (b : NdArray α) : (setTemporalSlice a sl b).shape = a.shape := rfl

theorem assembleFold_shape {α : Type} [Zero α]
    (g : List (ImageBlocksGroupingKey × NdArray α)) (a : NdArray α) :
    (g.foldl (fun x p => setTemporalSlice x (p.1.origslices.headD slNone) p.2) a).shape =
      a.shape := by
  induction g generalizing a with
  | nil => rfl
  | cons p tl ih => simpa [setTemporalSlice_shape] using ih (setTemporalSlice a _ p.2)

theorem assembleFold_data_nil {α : Type} [Zero α]
    (g : List (ImageBlocksGroupingKey × NdArray α)) (a : NdArray α) :
    (g.foldl (fun x p => setTemporalSlice x (p.1.origslices.headD slNone) p.2) a).data [] =
      a.data [] := by
  induction g generalizing a with
  | nil => rfl
  | cons p tl ih => simpa [setTemporalSlice] using ih (setTemporalSlice a _ p.2)

theorem setTemporalSlice_data_cons {α : Type} (a : NdArray α) (sl : PySlice)
    (b : NdArray α) (t : Nat) (r : List Nat) :
    (setTemporalSlice a sl b).data (t :: r) =
      if sl.startD ≤ t ∧ t < min (sl.stopD (a.shape.headD 0)) (a.shape.headD 0)
      then b.data ((t - sl.startD) :: r) else a.data (t :: r) := rfl

theorem assembleFold_data {α : Type} [Zero α]
    (g : List (ImageBlocksGroupingKey × NdArray α)) (a : NdArray α) (t : Nat) (r : List Nat) :
    (g.foldl (fun x p => setTemporalSlice x (p.1.origslices.headD slNone) p.2) a).data (t :: r) =
      match (g.filter (fun p => decide (tcovers (a.shape.headD 0) p.1 t))).getLast? with
      | some p => p.2.data ((t - tstartOf p.1) :: r)
      | none => a.data (t :: r) := by
  induction g generalizing a with
  | nil => rfl
  | cons p tl ih =>
    simp only [List.foldl_cons]
    rw [ih (setTemporalSlice a (p.1.origslices.headD slNone) p.2)]
    simp only [setTemporalSlice_shape]
    by_cases hc : tcovers (a.shape.headD 0) p.1 t
    · rw [List.filter_cons_of_pos (by simpa using hc)]
      rcases hfl : tl.filter (fun q => decide (tcovers (a.shape.headD 0) q.1 t)) with _ | ⟨x, xs⟩
      · rw [hfl, List.getLast?_nil, List.getLast?_singleton]
        show (setTemporalSlice a (p.1.origslices.headD slNone) p.2).data (t :: r) =
          p.2.data ((t - tstartOf p.1) :: r)
        rw [setTemporalSlice_data_cons, if_pos]
        · rfl
        · exact hc
      · rw [hfl, List.getLast?_cons_cons]
        rcases hgl : (x :: xs).getLast? with _ | y
        · simp at hgl
        · rfl
    · rw [List.filter_cons_of_neg (by simpa using hc)]
      rcases hfl : tl.filter (fun q => decide (tcovers (a.shape.headD 0) q.1 t)) with _ | ⟨x, xs⟩
      · rw [hfl, List.getLast?_nil]
        show (setTemporalSlice a (p.1.origslices.headD slNone) p.2).data (t :: r) =
          a.data (t :: r)
        rw [setTemporalSlice_data_cons, if_neg]
        exact hc
      · rw [hfl]
        rcases hgl : (x :: xs).getLast? with _ | y
        · simp at hgl
        · rfl

theorem filter_cover_subsingleton {α : Type}
    (g : List (ImageBlocksGroupingKey × NdArray α)) (T0 t : Nat)
    (hdisj : List.Pairwise (fun p q => tdisjointOn T0 p.1 q.1) g) :
    (g.filter (fun p => decide (tcovers T0 p.1 t))).length ≤ 1 := by
  have hp := hdisj.filter (fun p => decide (tcovers T0 p.1 t))
  rcases hfl : g.filter (fun p => decide (tcovers T0 p.1 t)) with _ | ⟨x, _ | ⟨y, tl⟩⟩
  · rw [hfl]; simp
  · rw [hfl]; simp
  · exfalso
    rw [hfl] at hp
    have hxy : tdisjointOn T0 x.1 y.1 := by
      have := List.pairwise_cons.mp hp
      exact this.1 y (by simp)
    have hx : x ∈ g.filter (fun p => decide (tcovers T0 p.1 t)) := by rw [hfl]; simp
    have hy : y ∈ g.filter (fun p => decide (tcovers T0 p.1 t)) := by rw [hfl]; simp
    have hcx : tcovers T0 x.1 t := by simpa using (List.mem_filter.mp hx).2
    have hcy : tcovers T0 y.1 t := by simpa using (List.mem_filter.mp hy).2
    simp only [tcovers, tdisjointOn] at hcx hcy hxy
    omega

theorem filter_eq_singleton_of_mem {β : Type} {x : β} (g : List β) (q : β → Bool)
    (hx : x ∈ g) (hq : q x = true) (hlen : (g.filter q).length ≤ 1) :
    g.filter q = [x] := by
  have hmem : x ∈ g.filter q := List.mem_filter.mpr ⟨hx, hq⟩
  rcases hfl : g.filter q with _ | ⟨a, tl⟩
  · rw [hfl] at hmem; simp at hmem
  · rw [hfl] at hmem hlen
    have htl : tl = [] := by
      simp only [List.length_cons] at hlen
      exact List.length_eq_zero.mp (by omega)
    subst htl
    simp at hmem
    subst hmem
    rfl

/-- C5: on a nonempty group with pairwise-disjoint temporal slices, the
temporal assembler zero-initializes an accumulator with `origshape[0]`
rows, writes every present block into the row range of its own temporal
slice, leaves every row no block covers at zero, and raises no error for
missing timepoints. -/
theorem blockingFunction_gap_fill {α : Type} [Zero α]
    (k0 : ImageBlocksGroupingKey) (b0 : NdArray α)
    (rest : List (ImageBlocksGroupingKey × NdArray α))
    (hdisj : List.Pairwise
      (fun p q => tdisjointOn (k0.origshape.headD 0) p.1 q.1) ((k0, b0) :: rest)) :
    ∃ A, blockingFunction ((k0, b0) :: rest) = some (assembledKey k0, A) ∧
      A.shape = k0.origshape.headD 0 :: b0.shape.tail ∧
      (∀ p ∈ (k0, b0) :: rest, ∀ t, tcovers (k0.origshape.headD 0) p.1 t →
        ∀ r, A.data (t :: r) = p.2.data ((t - tstartOf p.1) :: r)) ∧
      (∀ t, (∀ p ∈ (k0, b0) :: rest, ¬ tcovers (k0.origshape.headD 0) p.1 t) →
        ∀ r, A.data (t :: r) = (0 : α)) := by
  refine ⟨_, blockingFunction_cons k0 b0 rest, ?_, ?_, ?_⟩
  · rw [assembleFold_shape]
    rfl
  · intro p hp t ht r
    rw [assembleFold_data]
    have hsub := filter_cover_subsingleton ((k0, b0) :: rest) (k0.origshape.headD 0) t hdisj
    have hfe : ((k0, b0) :: rest).filter
        (fun q => decide (tcovers (k0.origshape.headD 0) q.1 t)) = [p] :=
      filter_eq_singleton_of_mem _ _ hp (by simpa using ht) hsub
    show (match (((k0, b0) :: rest).filter
        (fun q => decide (tcovers (((NdArray.zeros
          (k0.origshape.headD 0 :: b0.shape.tail) : NdArray α)).shape.headD 0) q.1 t))).getLast? with
      | some q => q.2.data ((t - tstartOf q.1) :: r)
      | none => (NdArray.zeros (k0.origshape.headD 0 :: b0.shape.tail) : NdArray α).data (t :: r)) =
      p.2.data ((t - tstartOf p.1) :: r)
    rw [show ((NdArray.zeros (k0.origshape.headD 0 :: b0.shape.tail) : NdArray α)).shape.headD 0 =
      k0.origshape.headD 0 from rfl, hfe, List.getLast?_singleton]
  · intro t hnone r
    rw [assembleFold_data]
    have hfe : ((k0, b0) :: rest).filter
        (fun q => decide (tcovers (k0.origshape.headD 0) q.1 t)) = [] := by
      rw [List.filter_eq_nil_iff]
      intro q hq
      simpa using hnone q hq
    show (match (((k0, b0) :: rest).filter
        (fun q => decide (tcovers (((NdArray.zeros
          (k0.origshape.headD 0 :: b0.shape.tail) : NdArray α)).shape.headD 0) q.1 t))).getLast? with
      | some q => q.2.data ((t - tstartOf q.1) :: r)
      | none => (NdArray.zeros (k0.origshape.headD 0 :: b0.shape.tail) : NdArray α).data (t :: r)) =
      (0 : α)
    rw [show ((NdArray.zeros (k0.origshape.headD 0 :: b0.shape.tail) : NdArray α)).shape.headD 0 =
      k0.origshape.headD 0 from rfl, hfe, List.getLast?_nil]
    rfl

/-- C5 witness: a two-element group over 3 timepoints with timepoint 1
absent; the assembler succeeds, writes both blocks, and leaves row 1 zero. -/
theorem blockingFunction_gap_fill_witness :
    ∃ A, blockingFunction ((gapKey0, gapBlock1) :: [(gapKey2, gapBlock2)]) =
        some (assembledKey gapKey0, A) ∧
      A.shape = gapKey0.origshape.headD 0 :: gapBlock1.shape.tail ∧
      (∀ p ∈ (gapKey0, gapBlock1) :: [(gapKey2, gapBlock2)], ∀ t,
        tcovers (gapKey0.origshape.headD 0) p.1 t →
        ∀ r, A.data (t :: r) = p.2.data ((t - tstartOf p.1) :: r)) ∧
      (∀ t, (∀ p ∈ (gapKey0, gapBlock1) :: [(gapKey2, gapBlock2)],
          ¬ tcovers (gapKey0.origshape.headD 0) p.1 t) →
        ∀ r, A.data (t :: r) = (0 : Int)) :=
  blockingFunction_gap_fill gapKey0 gapBlock1 [(gapKey2, gapBlock2)] (by decide)

theorem perm_eq_of_length_le_one {β : Type} {l1 l2 : List β} (h : l1.Perm l2)
    (hl : l1.length ≤ 1) : l1 = l2 := by
  cases l1 with
  | nil => rw [(List.Perm.eq_nil h.symm)]
  | cons x tl =>
    cases tl with
    | nil => rw [List.perm_singleton.mp h.symm]
    | cons y ys => simp at hl

/-- C10: on a nonempty group whose keys share origshape and spatial
slices, whose blocks share one shape, and whose temporal slices are
pairwise disjoint, the temporal assembler returns the same key and the
same merged array for every permutation of the group. -/
theorem blockingFunction_perm_invariant {α : Type} [Zero α] (T0 : Nat)
    (g g2 : List (ImageBlocksGroupingKey × NdArray α)) (hperm : g.Perm g2)
    (hne : g ≠ [])
    (hT0 : ∀ p ∈ g, p.1.origshape.headD 0 = T0)
    (hshape : ∀ p ∈ g, ∀ q ∈ g, p.1.origshape = q.1.origshape)
    (hspat : ∀ p ∈ g, ∀ q ∈ g, p.1.origslices.tail = q.1.origslices.tail)
    (hblock : ∀ p ∈ g, ∀ q ∈ g, p.2.shape = q.2.shape)
    (hdisj : List.Pairwise (fun p q => tdisjointOn T0 p.1 q.1) g) :
    blockingFunction g = blockingFunction g2 := by
  cases g with
  | nil => exact absurd rfl hne
  | cons p0 tl =>
    obtain ⟨k0, b0⟩ := p0
    cases g2 with
    | nil =>
      have := hperm.length_eq
      simp at this
    | cons p1 tl2 =>
      obtain ⟨k1, b1⟩ := p1
      rw [blockingFunction_cons, blockingFunction_cons]
      have hm0 : (k0, b0) ∈ (k0, b0) :: tl := by simp
      have hm1 : (k1, b1) ∈ (k0, b0) :: tl := hperm.mem_iff.mpr (by simp)
      have h1 : k0.origshape = k1.origshape := hshape _ hm0 _ hm1
      have h2 : k0.origslices.tail = k1.origslices.tail := hspat _ hm0 _ hm1
      have hT00 : k0.origshape.headD 0 = T0 := hT0 _ hm0
      have hT01 : k1.origshape.headD 0 = T0 := hT0 _ hm1
      have hbsh : b0.shape = b1.shape := hblock _ hm0 _ hm1
      have hkkey : assembledKey k0 = assembledKey k1 := by
        unfold assembledKey
        rw [h1, h2]
      refine congrArg some (Prod.ext hkkey ?_)
      apply NdArray.ext0
      · rw [assembleFold_shape, assembleFold_shape]
        show k0.origshape.headD 0 :: b0.shape.tail = k1.origshape.headD 0 :: b1.shape.tail
        rw [hT00, hT01, hbsh]
      · funext idx
        cases idx with
        | nil =>
          rw [assembleFold_data_nil, assembleFold_data_nil]
          rfl
        | cons t r =>
          rw [assembleFold_data, assembleFold_data]
          have e0 : ((NdArray.zeros (k0.origshape.headD 0 :: b0.shape.tail) :
              NdArray α)).shape.headD 0 = T0 := hT00
          have e1 : ((NdArray.zeros (k1.origshape.headD 0 :: b1.shape.tail) :
              NdArray α)).shape.headD 0 = T0 := hT01
          rw [e0, e1]
          have hfilt : ((k0, b0) :: tl).filter (fun q => decide (tcovers T0 q.1 t)) =
              ((k1, b1) :: tl2).filter (fun q => decide (tcovers T0 q.1 t)) :=
            perm_eq_of_length_le_one (hperm.filter _)
              (filter_cover_subsingleton _ T0 t hdisj)
          rw [hfilt]
          rcases hgl : (((k1, b1) :: tl2).filter
              (fun q => decide (tcovers T0 q.1 t))).getLast? with _ | y
          · rfl
          · rfl

/-- C10 witness: swapping the two elements of a concrete group leaves the
assembler's output unchanged. -/
theorem blockingFunction_perm_invariant_witness :
    blockingFunction [(gapKey0, gapBlock1), (gapKey2, gapBlock2)] =
      blockingFunction [(gapKey2, gapBlock2), (gapKey0, gapBlock1)] :=
  blockingFunction_perm_invariant 3 _ _
    (List.Perm.swap (gapKey2, gapBlock2) (gapKey0, gapBlock1) [])
    (List.cons_ne_nil _ _)
    (by intro p hp; fin_cases hp <;> rfl)
    (by intro p hp q hq; fin_cases hp <;> fin_cases hq <;> rfl)
    (by intro p hp q hq; fin_cases hp <;> fin_cases hq <;> rfl)
    (by intro p hp q hq; fin_cases hp <;> fin_cases hq <;> rfl)
    (by decide)

/-! Decimal-representation lemmas for the label format. -/

theorem specDigits_lt10 (k : Nat) (h : k < 10) : specDigits k = [Nat.digitChar k] := by
  rw [specDigits, if_pos h]

theorem specDigits_ge10 (k : Nat) (h : 10 ≤ k) :
    specDigits k = specDigits (k / 10) ++ [Nat.digitChar (k % 10)] := by
  rw [specDigits]
  rw [if_neg (by omega)]

theorem toDigitsCore_eq_specDigits (fuel : Nat) :
    ∀ (n : Nat) (ds : List Char), n < 10 ^ fuel → 0 < fuel →
      Nat.toDigitsCore 10 fuel n ds = specDigits n ++ ds := by
  induction fuel with
  | zero => intro n ds h h0; omega
  | succ m ih =>
    intro n ds h _
    rw [Nat.toDigitsCore]
    by_cases hn : n / 10 = 0
    · rw [if_pos hn]
      have hlt : n < 10 := by omega
      rw [specDigits_lt10 n hlt, Nat.mod_eq_of_lt hlt]
      rfl
    · rw [if_neg hn]
      have hge : 10 ≤ n := by omega
      have hm0 : 0 < m := by
        rcases Nat.eq_zero_or_pos m with hm | hm
        · subst hm
          norm_num at h
          omega
        · exact hm
      have hlt2 : n / 10 < 10 ^ m := by
        rw [Nat.div_lt_iff_lt_mul (by norm_num)]
        calc n < 10 ^ (m + 1) := h
          _ = 10 ^ m * 10 := by rw [pow_succ]
      rw [ih (n / 10) (Nat.digitChar (n % 10) :: ds) hlt2 hm0]
      rw [specDigits_ge10 n hge]
      simp

theorem repr_eq_specDigits (n : Nat) : Nat.repr n = (specDigits n).asString := by
  show (Nat.toDigits 10 n).asString = (specDigits n).asString
  rw [Nat.toDigits]
  rw [toDigitsCore_eq_specDigits (n + 1) n [] ?_ (by omega)]
  · simp
  · calc n < 10 ^ n := Nat.lt_pow_self (by norm_num) n
      _ ≤ 10 ^ (n + 1) := Nat.pow_le_pow_right (by norm_num) (by omega)

theorem zfill_asString (w : Nat) (l : List Char) :
    zfill w (List.asString l) = String.mk (List.replicate (w - l.length) '0' ++ l) := rfl

theorem zfill_five (k : Nat) (h : k < 100000) : zfill 5 (Nat.repr k) = fiveDigitsS k := by
  rw [repr_eq_specDigits]
  rcases Nat.lt_or_ge k 10 with h1 | h1
  · rw [specDigits_lt10 k h1, zfill_asString]
    unfold fiveDigitsS
    have e1 : k / 10000 % 10 = 0 := by omega
    have e2 : k / 1000 % 10 = 0 := by omega
    have e3 : k / 100 % 10 = 0 := by omega
    have e4 : k / 10 % 10 = 0 := by omega
    have e5 : k % 10 = k := by omega
    rw [e1, e2, e3, e4, e5]
    rfl
  rcases Nat.lt_or_ge k 100 with h2 | h2
  · rw [specDigits_ge10 k h1, specDigits_lt10 (k / 10) (by omega), zfill_asString]
    unfold fiveDigitsS
    have e1 : k / 10000 % 10 = 0 := by omega
    have e2 : k / 1000 % 10 = 0 := by omega
    have e3 : k / 100 % 10 = 0 := by omega
    have e4 : k / 10 % 10 = k / 10 := by omega
    rw [e1, e2, e3, e4]
    rfl
  rcases Nat.lt_or_ge k 1000 with h3 | h3
  · rw [specDigits_ge10 k h1, specDigits_ge10 (k / 10) (by omega),
      specDigits_lt10 (k / 10 / 10) (by omega), zfill_asString]
    unfold fiveDigitsS
    have e1 : k / 10000 % 10 = 0 := by omega
    have e2 : k / 1000 % 10 = 0 := by omega
    have e3 : k / 10 / 10 = k / 100 % 10 := by omega
    rw [e1, e2, e3]
    rfl
  rcases Nat.lt_or_ge k 10000 with h4 | h4
  · rw [specDigits_ge10 k h1, specDigits_ge10 (k / 10) (by omega),
      specDigits_ge10 (k / 10 / 10) (by omega),
      specDigits_lt10 (k / 10 / 10 / 10) (by omega), zfill_asString]
    unfold fiveDigitsS
    have e1 : k / 10000 % 10 = 0 := by omega
    have e2 : k / 10 / 10 / 10 = k / 1000 % 10 := by omega
    have e3 : k / 10 / 10 % 10 = k / 100 % 10 := by omega
    rw [e1, e2, e3]
    rfl
  · rw [specDigits_ge10 k h1, specDigits_ge10 (k / 10) (by omega),
      specDigits_ge10 (k / 10 / 10) (by omega),
      specDigits_ge10 (k / 10 / 10 / 10) (by omega),
      specDigits_lt10 (k / 10 / 10 / 10 / 10) (by omega), zfill_asString]
    unfold fiveDigitsS
    have e1 : k / 10 / 10 / 10 / 10 = k / 10000 % 10 := by omega
    have e2 : k / 10 / 10 / 10 % 10 = k / 1000 % 10 := by omega
    have e3 : k / 10 / 10 % 10 = k / 100 % 10 := by omega
    rw [e1, e2, e3]
    rfl

theorem zfill_two (i : Nat) (h : i < 100) : zfill 2 (Nat.repr i) = twoDigitsS i := by
  rw [repr_eq_specDigits]
  rcases Nat.lt_or_ge i 10 with h1 | h1
  · rw [specDigits_lt10 i h1, zfill_asString]
    unfold twoDigitsS
    have e1 : i / 10 % 10 = 0 := by omega
    have e2 : i % 10 = i := by omega
    rw [e1, e2]
    rfl
  · rw [specDigits_ge10 i h1, specDigits_lt10 (i / 10) (by omega), zfill_asString]
    unfold twoDigitsS
    have e1 : i / 10 = i / 10 % 10 := by omega
    rw [← e1]
    rfl

theorem strJoin_append_singleton (sep : String) (l : List String) (a : String) :
    strJoin sep (l ++ [a]) = if l = [] then a else strJoin sep l ++ sep ++ a := by
  induction l with
  | nil => rfl
  | cons x xs ih =>
    cases xs with
    | nil => rfl
    | cons y ys =>
      have hne : (y :: ys : List String) ≠ [] := by simp
      simp only [List.cons_append, List.append_eq, strJoin] at ih ⊢
      rw [ih, if_neg hne, if_neg (by simp)]
      simp [String.append_assoc]

theorem label_eq_labelSpec (ks : List Nat) (i : Nat)
    (hlen : i + ks.length ≤ 100) (hk : ∀ k ∈ ks, k < 100000) :
    strJoin ("-") (((ks.enumFrom i).map
      (fun p => "key" ++ zfill 2 (Nat.repr p.1) ++ "_" ++ zfill 5 (Nat.repr p.2))).reverse) =
      labelSpecGo i ks := by
  induction ks generalizing i with
  | nil => rfl
  | cons k rest ih =>
    rw [List.enumFrom_cons]
    simp only [List.map_cons, List.reverse_cons]
    rw [strJoin_append_singleton]
    cases rest with
    | nil =>
      rw [if_pos (by simp)]
      rw [zfill_two i (by simp at hlen; omega), zfill_five k (hk k (by simp))]
      rfl
    | cons k2 r2 =>
      rw [if_neg (by simp)]
      rw [ih (i + 1) (by simp at hlen ⊢; omega)
        (fun q hq => hk q (List.mem_cons_of_mem _ hq))]
      rw [zfill_two i (by simp at hlen; omega), zfill_five k (hk k (by simp))]
      rfl

/-- C6: for every block key whose spatial coordinates are below 100000
(and at most 100 spatial dimensions, so dimension indices fit the
two-digit field), the binary label is the spatial key reversed, each
component rendered as the literal string `key`, the two-digit zero-padded
dimension index, an underscore, and the five-digit zero-padded coordinate,
joined by dashes with the rightmost dimension printed first. -/
theorem getBinarySeriesNameForKey_layout (ks : List Nat)
    (hlen : ks.length ≤ 100) (hk : ∀ k ∈ ks, k < 100000) :
    getBinarySeriesNameForKey ks = labelSpecGo 0 ks := by
  unfold getBinarySeriesNameForKey
  show strJoin ("-") (((ks.enumFrom 0).map _).reverse) = _
  exact label_eq_labelSpec ks 0 (by omega) hk

/-- C6 witness: the 3-d spatial key `(0, 5, 10)` yields exactly the label
of the spec's example. -/
theorem getBinarySeriesNameForKey_layout_witness :
    getBinarySeriesNameForKey [0, 5, 10] = "key02_00010-key01_00005-key00_00000" := by
  rw [getBinarySeriesNameForKey_layout [0, 5, 10] (by decide) (by decide)]
  rfl

/-! Properties of the binary-record serializer. -/

theorem listProd_length {α : Type} :
    ∀ (L : List (List α)) (l : List α), l ∈ listProd L → l.length = L.length := by
  intro L
  induction L with
  | nil =>
    intro l hl
    simp only [listProd, List.mem_singleton] at hl
    subst hl
    rfl
  | cons xs rest ih =>
    intro l hl
    simp only [listProd, List.mem_flatMap, List.mem_map] at hl
    obtain ⟨x, _, l2, hl2, rfl⟩ := hl
    simp [ih l2 hl2]

theorem toSeriesIter_keyLen {α : Type} (key : ImageBlocksGroupingKey) (ary : NdArray α) :
    ∀ p ∈ toSeriesIter key ary,
      p.1.length = (getRangeIterators key.origslices key.origshape).tail.length := by
  intro p hp
  unfold toSeriesIter at hp
  simp only [List.mem_map] at hp
  obtain ⟨idxSeq, hmem, rfl⟩ := hp
  have := listProd_length _ _ hmem
  simp at this ⊢
  omega

theorem packRecords_ok {α : Type} (n0 : Nat) :
    ∀ (l : List (List Nat × List α)) (kp : Option Nat),
      (∀ p ∈ l, p.1.length = n0) → (∀ p ∈ l, ∀ k ∈ p.1, k ≤ 32767) →
      (kp = none ∨ kp = some n0) →
      packRecords kp l = some (l.flatMap
        (fun p => p.1.map (fun k => BinChunk.coord k) ++ p.2.map (fun v => BinChunk.datum v))) := by
  intro l
  induction l with
  | nil => intro kp _ _ _; rfl
  | cons q rest ih =>
    intro kp hlen hrange hkp
    obtain ⟨sk, series⟩ := q
    have hsk : sk.length = n0 := hlen (sk, series) (by simp)
    have hn : kp.getD sk.length = n0 := by
      rcases hkp with h | h <;> subst h <;> simp [hsk]
    simp only [packRecords, hn]
    rw [if_pos ⟨hsk, fun k hk => hrange (sk, series) (by simp) k hk⟩]
    rw [ih (some n0) (fun p hp => hlen p (List.mem_cons_of_mem _ hp))
      (fun p hp => hrange p (List.mem_cons_of_mem _ hp)) (Or.inr rfl)]
    simp

theorem packRecords_err {α : Type} (n0 : Nat) :
    ∀ (l : List (List Nat × List α)) (kp : Option Nat),
      (∀ p ∈ l, p.1.length = n0) → (kp = none ∨ kp = some n0) →
      (∃ p ∈ l, ∃ k ∈ p.1, 32767 < k) →
      packRecords kp l = none := by
  intro l
  induction l with
  | nil => intro kp _ _ hex; simp at hex
  | cons q rest ih =>
    intro kp hlen hkp hex
    obtain ⟨sk, series⟩ := q
    have hsk : sk.length = n0 := hlen (sk, series) (by simp)
    have hn : kp.getD sk.length = n0 := by
      rcases hkp with h | h <;> subst h <;> simp [hsk]
    simp only [packRecords, hn]
    by_cases hh : ∀ k ∈ sk, k ≤ 32767
    · rw [if_pos ⟨hsk, hh⟩]
      have hrest : ∃ p ∈ rest, ∃ k ∈ p.1, 32767 < k := by
        obtain ⟨p, hp, k, hk, hgt⟩ := hex
        rcases List.mem_cons.mp hp with h | h
        · exfalso
          subst h
          exact absurd (hh k hk) (by omega)
        · exact ⟨p, h, k, hk, hgt⟩
      rw [ih (some n0) (fun p hp => hlen p (List.mem_cons_of_mem _ hp)) (Or.inr rfl) hrest]
      rfl
    · rw [if_neg (fun hc => hh hc.2)]

/-- C7: `blockToBinarySeries` succeeds exactly when every coordinate
yielded by the series iterator fits a signed 16-bit integer (all yielded
coordinates are non-negative, so only the 32767 bound can fail), in which
case the payload is the concatenation of the records — for each
`(coordinate, series)` pair the coordinates packed as int16 in order
followed by the series elements, with nothing in between; any coordinate
beyond the int16 range makes the call fail (`struct.error`). -/
theorem blockToBinarySeries_int16_range {α : Type} (key : ImageBlocksGroupingKey)
    (ary : NdArray α) :
    ((∀ p ∈ toSeriesIter key ary, ∀ k ∈ p.1, k ≤ 32767) →
      blockToBinarySeries key ary =
        some (getBinarySeriesNameForKey key.spatialKey ++ (".bin"),
          (toSeriesIter key ary).flatMap
            (fun p => p.1.map (fun k => BinChunk.coord k) ++
              p.2.map (fun v => BinChunk.datum v)))) ∧
    ((∃ p ∈ toSeriesIter key ary, ∃ k ∈ p.1, 32767 < k) →
      blockToBinarySeries key ary = none) := by
  have hlen := toSeriesIter_keyLen key ary
  constructor
  · intro hin
    unfold blockToBinarySeries
    rw [packRecords_ok _ _ none hlen hin (Or.inl rfl)]
    rfl
  · intro hex
    unfold blockToBinarySeries
    rw [packRecords_err _ _ none hlen (Or.inl rfl) hex]
    rfl

/-- C7 witness: a block with in-range coordinates serializes to its
concatenated records, and a block with spatial coordinate 39999 fails. -/
theorem blockToBinarySeries_int16_range_witness :
    (blockToBinarySeries binKeyW binAryW =
      some (getBinarySeriesNameForKey binKeyW.spatialKey ++ (".bin"),
        (toSeriesIter binKeyW binAryW).flatMap
          (fun p => p.1.map (fun k => BinChunk.coord k) ++
            p.2.map (fun v => BinChunk.datum v)))) ∧
    blockToBinarySeries binKeyBadW binAryBadW = none :=
  ⟨(blockToBinarySeries_int16_range binKeyW binAryW).1 (by decide),
   (blockToBinarySeries_int16_range binKeyBadW binAryBadW).2 (by decide)⟩

/-! Monotonicity of the block-size estimator. -/

theorem indtosubGo_mono (ds : List Nat) :
    ∀ (i j : Nat), i ≤ j → List.Forall₂ (fun x y => x ≤ y) (indtosubGo ds i) (indtosubGo ds j) := by
  induction ds with
  | nil => intro i j _; exact List.Forall₂.nil
  | cons d r ih =>
    intro i j hij
    simp only [indtosubGo]
    exact List.Forall₂.cons (by omega) (ih _ _ (by omega))

theorem indtosub_mono (dims : List Nat) (i j : Nat) (hij : i ≤ j) :
    List.Forall₂ (fun x y => x ≤ y) (indtosub dims i) (indtosub dims j) := by
  have hf := indtosubGo_mono dims.reverse i j hij
  simpa [indtosub] using List.forall₂_reverse_iff.mpr hf

theorem blockMemFold_le (dims : List Nat) :
    ∀ (s1 s2 : List Nat) (c1 c2 : ℚ), c1 ≤ c2 → 0 < c1 →
      (∀ d ∈ dims, 0 < d) →
      List.Forall₂ (fun x y => x ≤ y) s1 s2 →
      List.Forall₂ (fun x d => 1 ≤ x) s1 dims →
      ((dims.zip s2).map (fun p => (p.1 : ℚ) / (p.2 : ℚ))).foldl (fun x y => x * y) c1 ≤
        ((dims.zip s1).map (fun p => (p.1 : ℚ) / (p.2 : ℚ))).foldl (fun x y => x * y) c2 := by
  induction dims with
  | nil => intro s1 s2 c1 c2 hc _ _ _ _; simpa using hc
  | cons d dt ih =>
    intro s1 s2 c1 c2 hc hc1 hd h12 h1d
    cases h1d with
    | cons h1 h1tl =>
      rename_i a l
      cases h12 with
      | cons h2 h2tl =>
        rename_i b m
        have hd0 : (0 : ℚ) < (d : ℚ) := by
          have := hd d (by simp)
          exact_mod_cast this
        have ha : (0 : ℚ) < (a : ℚ) := by exact_mod_cast (by omega : 0 < a)
        have hb : (0 : ℚ) < (b : ℚ) := by exact_mod_cast (by omega : 0 < b)
        have hab : (a : ℚ) ≤ (b : ℚ) := by exact_mod_cast h2
        simp only [List.zip_cons_cons, List.map_cons, List.foldl_cons]
        apply ih l m
        · exact mul_le_mul hc (div_le_div_of_nonneg_left (le_of_lt hd0) ha hab)
            (le_of_lt (div_pos hd0 hb)) (by linarith)
        · exact mul_pos hc1 (div_pos hd0 hb)
        · exact fun q hq => hd q (by simp [hq])
        · exact h2tl
        · exact h1tl

theorem blockMemory_antitone (dims s1 s2 : List Nat)
    (hd : ∀ d ∈ dims, 0 < d)
    (h12 : List.Forall₂ (fun x y => x ≤ y) s1 s2)
    (h1d : List.Forall₂ (fun x d => 1 ≤ x) s1 dims) :
    blockMemoryForSplits dims s2 ≤ blockMemoryForSplits dims s1 :=
  blockMemFold_le dims s1 s2 1 1 (le_refl 1) (by norm_num) hd h12 h1d

theorem reversedGetItem_mono (dims : List Nat) (hd : ∀ d ∈ dims, 0 < d)
    (i j : Nat) (hij : i ≤ j) :
    reversedGetItem dims i ≤ reversedGetItem dims j := by
  unfold reversedGetItem
  apply blockMemory_antitone
  · exact hd
  · exact indtosub_mono dims _ _ (by omega)
  · exact (indtosub_bounds dims _ hd).imp (fun a b h => h.1)

theorem bisectLeftGo_spec (f : Nat → ℚ) (x : ℚ) (n : Nat)
    (hmono : ∀ i j, i ≤ j → j < n → f i ≤ f j) :
    ∀ (fuel lo hi : Nat), lo ≤ hi → hi ≤ n → hi - lo ≤ fuel →
      (∀ i, i < lo → f i < x) → (∀ i, hi ≤ i → i < n → x ≤ f i) →
      lo ≤ bisectLeftGo f x fuel lo hi ∧ bisectLeftGo f x fuel lo hi ≤ hi ∧
      (∀ i, i < bisectLeftGo f x fuel lo hi → f i < x) ∧
      (∀ i, bisectLeftGo f x fuel lo hi ≤ i → i < n → x ≤ f i) := by
  intro fuel
  induction fuel with
  | zero =>
    intro lo hi h1 h2 h3 hlow hhigh
    have he : lo = hi := by omega
    subst he
    exact ⟨le_refl _, le_refl _, hlow, fun i hi1 hi2 => hhigh i hi1 hi2⟩
  | succ m ih =>
    intro lo hi h1 h2 h3 hlow hhigh
    simp only [bisectLeftGo]
    by_cases hlt : lo < hi
    · rw [if_pos hlt]
      by_cases hf : f ((lo + hi) / 2) < x
      · rw [if_pos hf]
        refine ?_
        have hr := ih ((lo + hi) / 2 + 1) hi (by omega) h2 (by omega)
          (fun i hi2 => lt_of_le_of_lt
            (hmono i ((lo + hi) / 2) (by omega) (by omega)) hf)
          hhigh
        exact ⟨by omega, hr.2.1, hr.2.2.1, hr.2.2.2⟩
      · rw [if_neg hf]
        have hr := ih lo ((lo + hi) / 2) (by omega) (by omega) (by omega) hlow
          (fun i hi1 hi2 => le_trans (le_of_not_lt hf)
            (hmono ((lo + hi) / 2) i (by omega) hi2))
        exact ⟨hr.1, by omega, hr.2.2.1, hr.2.2.2⟩
    · rw [if_neg hlt]
      have he : lo = hi := by omega
      subst he
      exact ⟨le_refl _, le_refl _, hlow, fun i hi1 hi2 => hhigh i hi1 hi2⟩

theorem bisectLeft_spec (f : Nat → ℚ) (x : ℚ) (n : Nat)
    (hmono : ∀ i j, i ≤ j → j < n → f i ≤ f j) :
    bisectLeft f x n ≤ n ∧
      (∀ i, i < bisectLeft f x n → f i < x) ∧
      (∀ i, bisectLeft f x n ≤ i → i < n → x ≤ f i) := by
  have h := bisectLeftGo_spec f x n hmono n 0 n (by omega) (le_refl _) (by omega)
    (by omega) (by omega)
  exact ⟨h.2.1, h.2.2.1, h.2.2.2⟩

theorem bisectLeft_mono_x (f : Nat → ℚ) (n : Nat)
    (hmono : ∀ i j, i ≤ j → j < n → f i ≤ f j) (a b : ℚ) (hab : a ≤ b) :
    bisectLeft f a n ≤ bisectLeft f b n := by
  obtain ⟨hA1, hA2, _⟩ := bisectLeft_spec f a n hmono
  obtain ⟨_, _, hB3⟩ := bisectLeft_spec f b n hmono
  by_contra hcon
  push_neg at hcon
  have h1 : f (bisectLeft f b n) < a := hA2 _ hcon
  have h2 : b ≤ f (bisectLeft f b n) := hB3 _ (le_refl _) (by omega)
  linarith

theorem prodNatFold_mono : ∀ (s1 s2 : List Nat) (c1 c2 : Nat), c1 ≤ c2 →
    List.Forall₂ (fun x y => x ≤ y) s1 s2 →
    s1.foldl (fun x y => x * y) c1 ≤ s2.foldl (fun x y => x * y) c2 := by
  intro s1 s2 c1 c2 hc h
  induction h generalizing c1 c2 with
  | nil => simpa using hc
  | cons hab _ ih => exact ih _ _ (Nat.mul_le_mul hc hab)

theorem prodNat_mono (s1 s2 : List Nat) (h : List.Forall₂ (fun x y => x ≤ y) s1 s2) :
    prodNat s1 ≤ prodNat s2 :=
  prodNatFold_mono s1 s2 1 1 (le_refl 1) h

theorem gfbsAux_mono (dims : List Nat) (hpos : ∀ d ∈ dims, 0 < d)
    (x y : ℚ) (hxy : x ≤ y) :
    prodNat (generateFromBlockSizeAux y dims) ≤ prodNat (generateFromBlockSizeAux x dims) := by
  unfold generateFromBlockSizeAux
  have hmono : ∀ i j, i ≤ j → j < seqLen dims →
      reversedGetItem dims i ≤ reversedGetItem dims j :=
    fun i j hij _ => reversedGetItem_mono dims hpos i j hij
  have htx := (bisectLeft_spec (reversedGetItem dims) x (seqLen dims) hmono).1
  have hty := (bisectLeft_spec (reversedGetItem dims) y (seqLen dims) hmono).1
  have hxy2 := bisectLeft_mono_x (reversedGetItem dims) (seqLen dims) hmono x y hxy
  apply prodNat_mono
  apply indtosub_mono
  split <;> split <;> omega

/-- C3: with fixed dims, timepoint count and element size, the estimator
is monotone: a larger byte-size target never yields a SplitSpec with a
larger product of split counts (the nonempty-dims hypothesis marks where
Python's `reduce` without initializer would reject an empty dims tuple). -/
theorem generateFromBlockSize_monotone (dims : List Nat) (nimages itemsize : Nat)
    (a b : ℚ) (hd : dims ≠ []) (hpos : ∀ d ∈ dims, 0 < d)
    (hn : 0 < nimages) (he : 0 < itemsize) (hab : a ≤ b) :
    prodNat (generateFromBlockSize b dims nimages itemsize) ≤
      prodNat (generateFromBlockSize a dims nimages itemsize) := by
  unfold generateFromBlockSize
  apply gfbsAux_mono dims hpos
  have hm : (0 : ℚ) < ((nimages * itemsize : Nat) : ℚ) := by
    exact_mod_cast Nat.mul_pos hn he
  exact (div_le_div_iff_of_pos_right hm).mpr hab

/-- C3 witness: on dims (5, 10, 3) the split-count product for target 50
is at most the one for target 10. -/
theorem generateFromBlockSize_monotone_witness :
    prodNat (generateFromBlockSize 50 [5, 10, 3] 1 1) ≤
      prodNat (generateFromBlockSize 10 [5, 10, 3] 1 1) :=
  generateFromBlockSize_monotone [5, 10, 3] 1 1 10 50 (by decide) (by decide)
    (by decide) (by decide) (by norm_num)

/-- C4: for dims (5, 10, 3) and a byte-size target of exactly one full
z-plane's series (50 cells times timepoints times element size), the
estimator returns the SplitSpec (1, 1, 3). -/
theorem generateFromBlockSize_zplane (n e : Nat) (hn : 0 < n) (he : 0 < e) :
    generateFromBlockSize ((50 * n * e : Nat) : ℚ) [5, 10, 3] n e = [1, 1, 3] := by
  unfold generateFromBlockSize
  have hn2 : (n : ℚ) ≠ 0 := Nat.cast_ne_zero.mpr (by omega)
  have he2 : (e : ℚ) ≠ 0 := Nat.cast_ne_zero.mpr (by omega)
  have hx : (((50 * n * e : Nat) : ℚ)) / (((n * e : Nat) : ℚ)) = 50 := by
    push_cast
    field_simp
    try ring
  rw [hx]
  have hmono : ∀ i j, i ≤ j → j < seqLen [5, 10, 3] →
      reversedGetItem [5, 10, 3] i ≤ reversedGetItem [5, 10, 3] j :=
    fun i j hij _ => reversedGetItem_mono [5, 10, 3] (by decide) i j hij
  have hf12 : reversedGetItem [5, 10, 3] 12 < 50 := by
    show blockMemoryForSplits [5, 10, 3] (indtosub [5, 10, 3] (seqLen [5, 10, 3] - 13)) < 50
    rw [show indtosub [5, 10, 3] (seqLen [5, 10, 3] - 13) = [1, 2, 3] from by decide]
    simp only [blockMemoryForSplits, List.zip_cons_cons, List.zip_nil_right, List.map_cons,
      List.map_nil, List.foldl_cons, List.foldl_nil]
    norm_num
  have hf13 : (50 : ℚ) ≤ reversedGetItem [5, 10, 3] 13 := by
    show (50 : ℚ) ≤ blockMemoryForSplits [5, 10, 3] (indtosub [5, 10, 3] (seqLen [5, 10, 3] - 14))
    rw [show indtosub [5, 10, 3] (seqLen [5, 10, 3] - 14) = [1, 1, 3] from by decide]
    simp only [blockMemoryForSplits, List.zip_cons_cons, List.zip_nil_right, List.map_cons,
      List.map_nil, List.foldl_cons, List.foldl_nil]
    norm_num
  obtain ⟨hle, hlo, hhi⟩ := bisectLeft_spec (reversedGetItem [5, 10, 3]) 50
    (seqLen [5, 10, 3]) hmono
  have hb : bisectLeft (reversedGetItem [5, 10, 3]) 50 (seqLen [5, 10, 3]) = 13 := by
    rcases Nat.lt_trichotomy (bisectLeft (reversedGetItem [5, 10, 3]) 50 (seqLen [5, 10, 3]))
      13 with h | h | h
    · exfalso
      have h50 : (50 : ℚ) ≤ reversedGetItem [5, 10, 3] 12 :=
        hhi 12 (by omega) (by rw [show seqLen [5, 10, 3] = 16 from by decide]; omega)
      linarith
    · exact h
    · exfalso
      have hl50 : reversedGetItem [5, 10, 3] 13 < 50 := hlo 13 h
      linarith
  simp only [generateFromBlockSizeAux]
  rw [hb, show seqLen [5, 10, 3] = 16 from by decide]
  rw [if_neg (by decide)]
  decide

/-- C4 witness: one timepoint of one byte per element, target 50 bytes. -/
theorem generateFromBlockSize_zplane_witness :
    generateFromBlockSize ((50 * 1 * 1 : Nat) : ℚ) [5, 10, 3] 1 1 = [1, 1, 3] :=
  generateFromBlockSize_zplane 1 1 (by decide) (by decide)

/-! List machinery for the round-trip proof. -/

theorem forall₂_of_getD {α β : Type} (P : α → β → Prop) (da : α) (db : β) :
    ∀ (l1 : List α) (l2 : List β), l1.length = l2.length →
      (∀ i ∈ List.range l2.length, P (l1.getD i da) (l2.getD i db)) →
      List.Forall₂ P l1 l2 := by
  intro l1
  induction l1 with
  | nil =>
    intro l2 h _
    cases l2 with
    | nil => exact List.Forall₂.nil
    | cons y ys => simp at h
  | cons x xs ih =>
    intro l2 h hP
    cases l2 with
    | nil => simp at h
    | cons y ys =>
      refine List.Forall₂.cons (by simpa using hP 0 (by simp)) ?_
      refine ih ys (by simpa using h) (fun i hi => ?_)
      have := hP (i + 1) (by simp at hi ⊢; omega)
      simpa using this

theorem listProd_mem {α : Type} :
    ∀ (L : List (List α)) (l : List α),
      l ∈ listProd L ↔ List.Forall₂ (fun x xs => x ∈ xs) l L := by
  intro L
  induction L with
  | nil =>
    intro l
    simp only [listProd, List.mem_singleton]
    constructor
    · rintro rfl; exact List.Forall₂.nil
    · intro h; cases h; rfl
  | cons xs rest ih =>
    intro l
    simp only [listProd, List.mem_flatMap, List.mem_map]
    constructor
    · rintro ⟨x, hx, l2, hl2, rfl⟩
      exact List.Forall₂.cons hx ((ih l2).mp hl2)
    · intro h
      cases h with
      | cons hx htl =>
        rename_i a l2
        exact ⟨a, hx, l2, (ih l2).mpr htl, rfl⟩

theorem nodup_flatMap_of {α β : Type} (l : List α) (f : α → List β) (hl : l.Nodup)
    (hf : ∀ x ∈ l, (f x).Nodup)
    (hdisj : ∀ x ∈ l, ∀ y ∈ l, x ≠ y → ∀ b ∈ f x, b ∉ f y) : (l.flatMap f).Nodup := by
  induction l with
  | nil => simp
  | cons x xs ih =>
    rw [List.flatMap_cons]
    have hxnotin : x ∉ xs := (List.nodup_cons.mp hl).1
    refine List.Nodup.append (hf x (by simp)) ?_ ?_
    · exact ih (List.nodup_cons.mp hl).2 (fun y hy => hf y (by simp [hy]))
        (fun a ha b hb hab => hdisj a (by simp [ha]) b (by simp [hb]) hab)
    · intro b hb hbmem
      obtain ⟨y, hy, hby⟩ := List.mem_flatMap.mp hbmem
      have hxy : x ≠ y := fun he => hxnotin (he ▸ hy)
      exact hdisj x (by simp) y (by simp [hy]) hxy b hb hby

theorem listProd_nodup {α : Type} :
    ∀ (L : List (List α)), (∀ xs ∈ L, xs.Nodup) → (listProd L).Nodup := by
  intro L
  induction L with
  | nil => simp [listProd]
  | cons xs rest ih =>
    intro h
    simp only [listProd]
    refine nodup_flatMap_of xs _ (h xs (by simp)) ?_ ?_
    · intro x _
      exact List.Nodup.map (fun a b hab => (List.cons.injEq _ _ _ _).mp hab |>.2)
        (ih (fun l hl => h l (by simp [hl])))
    · intro x _ y _ hxy b hbx hby
      obtain ⟨lx, _, rfl⟩ := List.mem_map.mp hbx
      obtain ⟨ly, _, he⟩ := List.mem_map.mp hby
      exact hxy ((List.cons.injEq _ _ _ _).mp he.symm |>.1.symm.symm)

theorem nodup_filter_eq_of_mem {α : Type} [DecidableEq α] :
    ∀ (l : List α) (x : α), x ∈ l → l.Nodup →
      l.filter (fun y => decide (y = x)) = [x] := by
  intro l
  induction l with
  | nil => intro x hx; simp at hx
  | cons a tl ih =>
    intro x hx hnd
    rcases List.mem_cons.mp hx with h | h
    · subst h
      rw [List.filter_cons_of_pos (by simp)]
      have : tl.filter (fun y => decide (y = x)) = [] := by
        rw [List.filter_eq_nil_iff]
        intro b hb
        simp only [decide_eq_true_eq]
        intro he
        exact (List.nodup_cons.mp hnd).1 (he ▸ hb)
      rw [this]
    · have hax : a ≠ x := fun he => (List.nodup_cons.mp hnd).1 (he ▸ h)
      rw [List.filter_cons_of_neg (by simpa using hax)]
      exact ih x h (List.nodup_cons.mp hnd).2

theorem nodup_filter_eq_of_not_mem {α : Type} [DecidableEq α] (l : List α) (x : α)
    (hx : x ∉ l) : l.filter (fun y => decide (y = x)) = [] := by
  rw [List.filter_eq_nil_iff]
  intro b hb
  simp only [decide_eq_true_eq]
  intro he
  exact hx (he ▸ hb)

theorem filter_flatMap_comm {α β : Type} (l : List α) (f : α → List β) (p : β → Bool) :
    (l.flatMap f).filter p = l.flatMap (fun x => (f x).filter p) := by
  induction l with
  | nil => rfl
  | cons x xs ih => rw [List.flatMap_cons, List.flatMap_cons, List.filter_append, ih]

theorem flatMap_congr_mem {α β : Type} (l : List α) (f g : α → List β)
    (h : ∀ x ∈ l, f x = g x) : l.flatMap f = l.flatMap g := by
  induction l with
  | nil => rfl
  | cons x xs ih =>
    rw [List.flatMap_cons, List.flatMap_cons, h x (by simp),
      ih (fun y hy => h y (by simp [hy]))]

theorem flatMap_singleton_eq_map {α β : Type} (l : List α) (g : α → β) :
    l.flatMap (fun x => [g x]) = l.map g := by
  induction l with
  | nil => rfl
  | cons x xs ih => rw [List.flatMap_cons, ih]; rfl

theorem flatMap_eq_of_unique {α β : Type} (l : List α) (F : α → List β) (x : α)
    (hx : x ∈ l) (hnd : l.Nodup) (hother : ∀ y ∈ l, y ≠ x → F y = []) :
    l.flatMap F = F x := by
  induction l with
  | nil => simp at hx
  | cons a tl ih =>
    rw [List.flatMap_cons]
    rcases List.mem_cons.mp hx with h | h
    · subst h
      have htl : tl.flatMap F = [] := by
        rw [List.flatMap_eq_nil_iff]
        intro y hy
        exact hother y (by simp [hy]) (fun he => (List.nodup_cons.mp hnd).1 (he ▸ hy))
      rw [htl, List.append_nil]
    · have hax : a ≠ x := fun he => (List.nodup_cons.mp hnd).1 (he ▸ h)
      rw [hother a (by simp) hax, List.nil_append]
      exact ih h (List.nodup_cons.mp hnd).2 (fun y hy => hother y (by simp [hy]))

/-! Locating the block of a coordinate. -/

theorem sliceIndices_mkSlice (s e d x : Nat) :
    x ∈ sliceIndices (mkSlice s e) d ↔ s ≤ x ∧ x < e := by
  have h1 : (mkSlice s e).stepD = 1 := rfl
  have h2 : (mkSlice s e).startD = s := rfl
  have h3 : (mkSlice s e).stopD d = e := rfl
  unfold sliceIndices xrangeList
  rw [h1, h2, h3, if_neg (by omega)]
  rw [List.mem_range'_1]
  constructor <;> (intro h; omega)

theorem generateSlices_cons (n d : Nat) (ns ds : List Nat) :
    generateSlices (n :: ns) (d :: ds) = genDimSlices n d :: generateSlices ns ds := rfl

theorem genDimSlices_mem_char (n d : Nat) (h1 : 1 ≤ n) (hnd : n ≤ d) (sl : PySlice)
    (hsl : sl ∈ genDimSlices n d) :
    ∃ j, j < n ∧ sl = mkSlice (sStart d n j) (sStart d n (j + 1)) := by
  rw [genDimSlices_eq n d h1 hnd] at hsl
  obtain ⟨j, hj, rfl⟩ := List.mem_map.mp hsl
  exact ⟨j, List.mem_range.mp hj, rfl⟩

theorem mkSlice_mem_genDimSlices (n d j : Nat) (h1 : 1 ≤ n) (hnd : n ≤ d) (hj : j < n) :
    mkSlice (sStart d n j) (sStart d n (j + 1)) ∈ genDimSlices n d := by
  rw [genDimSlices_eq n d h1 hnd]
  exact List.mem_map.mpr ⟨j, List.mem_range.mpr hj, rfl⟩

theorem sStart_inj (d n : Nat) (h1 : 1 ≤ n) (hnd : n ≤ d) (j1 j2 : Nat)
    (he : sStart d n j1 = sStart d n j2) : j1 = j2 := by
  rcases Nat.lt_trichotomy j1 j2 with h | h | h
  · exfalso
    have ha := sStart_lt_succ d n j1 h1 hnd
    have hb := sStart_mono d n h1 hnd (show j1 + 1 ≤ j2 by omega)
    omega
  · exact h
  · exfalso
    have ha := sStart_lt_succ d n j2 h1 hnd
    have hb := sStart_mono d n h1 hnd (show j2 + 1 ≤ j1 by omega)
    omega

theorem genDimSlices_nodup (n d : Nat) (h1 : 1 ≤ n) (hnd : n ≤ d) :
    (genDimSlices n d).Nodup := by
  rw [genDimSlices_eq n d h1 hnd]
  refine List.Nodup.map_on ?_ (List.nodup_range n)
  intro j1 _ j2 _ he
  have hst : sStart d n j1 = sStart d n j2 := by
    have := congrArg PySlice.startD he
    simpa [mkSlice_startD] using this
  exact sStart_inj d n h1 hnd j1 j2 hst

theorem slices_nodup (splits dims : List Nat)
    (hv : List.Forall₂ (fun n d => 1 ≤ n ∧ n ≤ d) splits dims) :
    ∀ l ∈ generateSlices splits dims, l.Nodup := by
  induction hv with
  | nil => intro l hl; simp [generateSlices] at hl
  | cons hnd htl ih =>
    intro l hl
    rw [generateSlices_cons] at hl
    rcases List.mem_cons.mp hl with h | h
    · subst h
      exact genDimSlices_nodup _ _ hnd.1 hnd.2
    · exact ih l h

theorem slices_mem_mk (splits dims : List Nat)
    (hv : List.Forall₂ (fun n d => 1 ≤ n ∧ n ≤ d) splits dims) :
    ∀ l ∈ generateSlices splits dims, ∀ sl ∈ l, ∃ s e, sl = mkSlice s e := by
  induction hv with
  | nil => intro l hl; simp [generateSlices] at hl
  | cons hnd htl ih =>
    intro l hl sl hsl
    rw [generateSlices_cons] at hl
    rcases List.mem_cons.mp hl with h | h
    · subst h
      obtain ⟨j, _, rfl⟩ := genDimSlices_mem_char _ _ hnd.1 hnd.2 sl hsl
      exact ⟨_, _, rfl⟩
    · exact ih l h sl hsl

theorem forall₂_mem_left {α β : Type} {R : α → β → Prop} {l : List α} {m : List β}
    (h : List.Forall₂ R l m) {a : α} (ha : a ∈ l) : ∃ b ∈ m, R a b := by
  induction h with
  | nil => simp at ha
  | cons hr _ ih =>
    rcases List.mem_cons.mp ha with h2 | h2
    · subst h2
      exact ⟨_, by simp, hr⟩
    · obtain ⟨b, hb, hrb⟩ := ih h2
      exact ⟨b, by simp [hb], hrb⟩

theorem listProd_slices_good (splits dims : List Nat) (bs : List PySlice)
    (hv : List.Forall₂ (fun n d => 1 ≤ n ∧ n ≤ d) splits dims)
    (hmem : bs ∈ listProd (generateSlices splits dims)) :
    ∀ sl ∈ bs, ∃ s e, sl = mkSlice s e := by
  intro sl hsl
  obtain ⟨l, hl, hinl⟩ := forall₂_mem_left ((listProd_mem _ _).mp hmem) hsl
  exact slices_mem_mk splits dims hv l hl sl hinl

theorem listProd_slices_length (splits dims : List Nat) (bs : List PySlice)
    (hlen : splits.length = dims.length)
    (hmem : bs ∈ listProd (generateSlices splits dims)) :
    bs.length = dims.length := by
  have h := listProd_length _ _ hmem
  unfold generateSlices at h
  simp [List.length_zip, hlen] at h
  exact h

theorem slices_locate_ex :
    ∀ (splits dims c : List Nat),
      List.Forall₂ (fun n d => 1 ≤ n ∧ n ≤ d) splits dims →
      List.Forall₂ (fun x d => x < d) c dims →
      ∃ bs, bs ∈ listProd (generateSlices splits dims) ∧
        List.Forall₂ (fun x p => x ∈ sliceIndices p.1 p.2) c (bs.zip dims) := by
  intro splits
  induction splits with
  | nil =>
    intro dims c hv hc
    cases hv
    cases hc
    exact ⟨[], by simp [listProd, generateSlices], List.Forall₂.nil⟩
  | cons n ns ih =>
    intro dims c hv hc
    cases hv with
    | cons hnd hvtl =>
      rename_i d ds
      cases hc with
      | cons hxd hctl =>
        rename_i x cr
        obtain ⟨bs2, hbs2, hcov2⟩ := ih ds cr hvtl hctl
        obtain ⟨j, hj, hs1, hs2, _⟩ := sStart_locate d n x hnd.1 hnd.2 hxd
        refine ⟨mkSlice (sStart d n j) (sStart d n (j + 1)) :: bs2, ?_, ?_⟩
        · rw [generateSlices_cons]
          simp only [listProd, List.mem_flatMap, List.mem_map]
          exact ⟨_, mkSlice_mem_genDimSlices n d j hnd.1 hnd.2 hj, bs2, hbs2, rfl⟩
        · rw [List.zip_cons_cons]
          exact List.Forall₂.cons ((sliceIndices_mkSlice _ _ _ _).mpr ⟨hs1, hs2⟩) hcov2

theorem slices_locate_unique :
    ∀ (splits dims c : List Nat) (bs1 bs2 : List PySlice),
      List.Forall₂ (fun n d => 1 ≤ n ∧ n ≤ d) splits dims →
      bs1 ∈ listProd (generateSlices splits dims) →
      bs2 ∈ listProd (generateSlices splits dims) →
      List.Forall₂ (fun x p => x ∈ sliceIndices p.1 p.2) c (bs1.zip dims) →
      List.Forall₂ (fun x p => x ∈ sliceIndices p.1 p.2) c (bs2.zip dims) →
      bs1 = bs2 := by
  intro splits
  induction splits with
  | nil =>
    intro dims c bs1 bs2 hv hm1 hm2 _ _
    cases hv
    simp [listProd, generateSlices] at hm1 hm2
    rw [hm1, hm2]
  | cons n ns ih =>
    intro dims c bs1 bs2 hv hm1 hm2 hc1 hc2
    cases hv with
    | cons hnd hvtl =>
      rename_i d ds
      rw [generateSlices_cons] at hm1 hm2
      simp only [listProd, List.mem_flatMap, List.mem_map] at hm1 hm2
      obtain ⟨sl1, hsl1, t1, ht1, rfl⟩ := hm1
      obtain ⟨sl2, hsl2, t2, ht2, rfl⟩ := hm2
      rw [List.zip_cons_cons] at hc1 hc2
      cases hc1 with
      | cons hx1 htl1 =>
        rename_i x cr
        cases hc2 with
        | cons hx2 htl2 =>
          obtain ⟨j1, hj1, rfl⟩ := genDimSlices_mem_char n d hnd.1 hnd.2 sl1 hsl1
          obtain ⟨j2, hj2, rfl⟩ := genDimSlices_mem_char n d hnd.1 hnd.2 sl2 hsl2
          rw [sliceIndices_mkSlice] at hx1 hx2
          have hxd : x < d := by
            have hm := sStart_mono d n hnd.1 hnd.2 (show j1 + 1 ≤ n by omega)
            have hf := sStart_full d n hnd.1 hnd.2
            omega
          obtain ⟨j, _, _, _, hun⟩ := sStart_locate d n x hnd.1 hnd.2 hxd
          have he1 : j1 = j := hun j1 hj1 hx1.1 hx1.2
          have he2 : j2 = j := hun j2 hj2 hx2.1 hx2.2
          subst he1
          rw [he2, ih ds cr t1 t2 hvtl ht1 ht2 htl1 htl2]

theorem slices_starts_inj :
    ∀ (splits dims : List Nat) (bs1 bs2 : List PySlice),
      List.Forall₂ (fun n d => 1 ≤ n ∧ n ≤ d) splits dims →
      bs1 ∈ listProd (generateSlices splits dims) →
      bs2 ∈ listProd (generateSlices splits dims) →
      bs1.map (fun sl => sl.startD) = bs2.map (fun sl => sl.startD) →
      bs1 = bs2 := by
  intro splits
  induction splits with
  | nil =>
    intro dims bs1 bs2 hv hm1 hm2 _
    cases hv
    simp [listProd, generateSlices] at hm1 hm2
    rw [hm1, hm2]
  | cons n ns ih =>
    intro dims bs1 bs2 hv hm1 hm2 hst
    cases hv with
    | cons hnd hvtl =>
      rename_i d ds
      rw [generateSlices_cons] at hm1 hm2
      simp only [listProd, List.mem_flatMap, List.mem_map] at hm1 hm2
      obtain ⟨sl1, hsl1, t1, ht1, rfl⟩ := hm1
      obtain ⟨sl2, hsl2, t2, ht2, rfl⟩ := hm2
      simp only [List.map_cons, List.cons.injEq] at hst
      obtain ⟨j1, hj1, rfl⟩ := genDimSlices_mem_char n d hnd.1 hnd.2 sl1 hsl1
      obtain ⟨j2, hj2, rfl⟩ := genDimSlices_mem_char n d hnd.1 hnd.2 sl2 hsl2
      have hj12 : j1 = j2 :=
        sStart_inj d n hnd.1 hnd.2 j1 j2 (by simpa [mkSlice_startD] using hst.1)
      subst hj12
      rw [ih ds t1 t2 hvtl ht1 ht2 hst.2]

/-! The group of one spatial key and its assembled block. -/

theorem extract_spatialKey {α : Type} (img : NdArray α) (bs : List PySlice) (t T : Nat) :
    (extractBlockFromImage img bs t T).1.spatialKey = bs.map (fun sl => sl.startD) := rfl

theorem group_filter_eq {α : Type} (dims splits : List Nat) (T : Nat)
    (vol : Nat → List Nat → α) (bs : List PySlice)
    (hv : List.Forall₂ (fun n d => 1 ≤ n ∧ n ≤ d) splits dims)
    (hbs : bs ∈ listProd (generateSlices splits dims)) :
    ((List.range T).flatMap (fun t =>
        partitionFunction (generateSlices splits dims) T t ⟨dims, vol t⟩)).filter
      (fun p => decide (p.1.spatialKey = bs.map (fun sl => sl.startD))) =
      (List.range T).map (fun t => extractBlockFromImage ⟨dims, vol t⟩ bs t T) := by
  rw [filter_flatMap_comm]
  have hstep : ∀ t ∈ List.range T,
      (partitionFunction (generateSlices splits dims) T t ⟨dims, vol t⟩).filter
        (fun p => decide (p.1.spatialKey = bs.map (fun sl => sl.startD))) =
      [extractBlockFromImage ⟨dims, vol t⟩ bs t T] := by
    intro t _
    unfold partitionFunction
    rw [List.filter_map]
    have hcong : (listProd (generateSlices splits dims)).filter
        ((fun p => decide (p.1.spatialKey = bs.map (fun sl => sl.startD))) ∘
          (fun bs2 => extractBlockFromImage ⟨dims, vol t⟩ bs2 t T)) =
        (listProd (generateSlices splits dims)).filter (fun bs2 => decide (bs2 = bs)) := by
      apply List.filter_congr
      intro bs2 hbs2
      show decide ((extractBlockFromImage ⟨dims, vol t⟩ bs2 t T).1.spatialKey =
        bs.map (fun sl => sl.startD)) = decide (bs2 = bs)
      rw [extract_spatialKey, decide_eq_decide]
      constructor
      · intro h
        exact slices_starts_inj splits dims bs2 bs hv hbs2 hbs h
      · intro h
        rw [h]
    rw [hcong, nodup_filter_eq_of_mem _ bs hbs (listProd_nodup _ (slices_nodup splits dims hv))]
    rfl
  rw [flatMap_congr_mem _ _ _ hstep, flatMap_singleton_eq_map]

theorem canonical_assembled {α : Type} [Zero α] (dims : List Nat) (T : Nat)
    (vol : Nat → List Nat → α) (bs : List PySlice) (hT : 0 < T) :
    ∃ A, blockingFunction ((List.range T).map (fun t =>
        extractBlockFromImage ⟨dims, vol t⟩ bs t T)) =
      some (⟨T :: dims, slNone :: bs⟩, A) ∧
      A.shape.headD 0 = T ∧
      (∀ t, t < T → ∀ r, A.data (t :: r) =
        vol t ((r.zip bs).map (fun p => p.2.startD + p.1 * p.2.stepD))) := by
  obtain ⟨T2, rfl⟩ : ∃ T2, T = T2 + 1 := ⟨T - 1, by omega⟩
  have hsplit : (List.range (T2 + 1)).map (fun t =>
      extractBlockFromImage ⟨dims, vol t⟩ bs t (T2 + 1)) =
      (⟨(T2 + 1) :: dims, mkSlice 0 1 :: bs⟩,
        ((NdArray.mk dims (vol 0)).sliceArr bs).expandDims0) ::
      (List.range T2).map (fun i =>
        extractBlockFromImage ⟨dims, vol (i + 1)⟩ bs (i + 1) (T2 + 1)) := by
    rw [List.range_succ_eq_map, List.map_cons, List.map_map]
    rfl
  rw [hsplit, blockingFunction_cons]
  refine ⟨_, rfl, ?_, ?_⟩
  · rw [assembleFold_shape]
    rfl
  · intro t ht r
    rw [assembleFold_data]
    rw [← hsplit]
    have hz : ((NdArray.zeros ((⟨(T2 + 1) :: dims, mkSlice 0 1 :: bs⟩ :
        ImageBlocksGroupingKey).origshape.headD 0 ::
        (((NdArray.mk dims (vol 0)).sliceArr bs).expandDims0).shape.tail) :
        NdArray α)).shape.headD 0 = T2 + 1 := rfl
    rw [hz]
    rw [List.filter_map]
    have hcong : (List.range (T2 + 1)).filter
        ((fun p => decide (tcovers (T2 + 1) p.1 t)) ∘
          (fun u => extractBlockFromImage ⟨dims, vol u⟩ bs u (T2 + 1))) =
        (List.range (T2 + 1)).filter (fun u => decide (u = t)) := by
      apply List.filter_congr
      intro u hu
      show decide (tcovers (T2 + 1) (extractBlockFromImage ⟨dims, vol u⟩ bs u (T2 + 1)).1 t) =
        decide (u = t)
      rw [decide_eq_decide]
      show (mkSlice u (u + 1)).startD ≤ t ∧
        t < min ((mkSlice u (u + 1)).stopD (T2 + 1)) (T2 + 1) ↔ u = t
      rw [mkSlice_startD, mkSlice_stopD]
      constructor <;> (intro h; omega)
    rw [hcong, nodup_filter_eq_of_mem _ t (List.mem_range.mpr ht) (List.nodup_range _)]
    rw [List.map_cons, List.map_nil, List.getLast?_singleton]
    show (((NdArray.mk dims (vol t)).sliceArr bs).expandDims0).data
      ((t - tstartOf (extractBlockFromImage ⟨dims, vol t⟩ bs t (T2 + 1)).1) :: r) =
      vol t ((r.zip bs).map (fun p => p.2.startD + p.1 * p.2.stepD))
    rw [show tstartOf (extractBlockFromImage ⟨dims, vol t⟩ bs t (T2 + 1)).1 = t from rfl]
    rw [Nat.sub_self]
    rfl

theorem local_roundtrip :
    ∀ (c : List Nat) (bs : List PySlice) (dims : List Nat),
      List.Forall₂ (fun x p => x ∈ sliceIndices p.1 p.2) c (bs.zip dims) →
      (∀ sl ∈ bs, ∃ s e, sl = mkSlice s e) →
      bs.length = dims.length →
      (((c.zip bs).map (fun p => localStart p.1 p.2)).zip bs).map
        (fun p => p.2.startD + p.1 * p.2.stepD) = c := by
  intro c
  induction c with
  | nil => intro bs dims _ _ _; rfl
  | cons x cr ih =>
    intro bs dims hcov hgood hl
    cases bs with
    | nil => cases hcov
    | cons sl bs2 =>
      cases dims with
      | nil => simp at hl
      | cons d ds =>
        rw [List.zip_cons_cons] at hcov
        cases hcov with
        | cons hx htl =>
          obtain ⟨s, e, rfl⟩ := hgood sl (by simp)
          rw [sliceIndices_mkSlice] at hx
          have hne : mkSlice s e ≠ slNone := by simp [mkSlice, slNone]
          simp only [List.zip_cons_cons, List.map_cons]
          rw [show localStart x (mkSlice s e) = x - s from by
            unfold localStart
            rw [if_neg hne]
            rfl]
          rw [mkSlice_startD, mkSlice_stepD]
          rw [show s + (x - s) * 1 = x from by omega]
          rw [ih bs2 ds htl (fun q hq => hgood q (List.mem_cons_of_mem _ hq)) (by simpa using hl)]

theorem sliceIndices_nodup (sl : PySlice) (d : Nat) : (sliceIndices sl d).Nodup := by
  unfold sliceIndices xrangeList
  split
  · simp
  · exact List.nodup_range' _ _ _ (by omega)

theorem canonical_series_filter_pos {α : Type} [Zero α] (dims : List Nat) (T : Nat)
    (vol : Nat → List Nat → α) (c : List Nat) (bs : List PySlice) (hT : 0 < T)
    (hgood : ∀ sl ∈ bs, ∃ s e, sl = mkSlice s e)
    (hl : bs.length = dims.length)
    (hcov : List.Forall₂ (fun x p => x ∈ sliceIndices p.1 p.2) c (bs.zip dims)) :
    (match blockingFunction ((List.range T).map (fun t =>
        extractBlockFromImage ⟨dims, vol t⟩ bs t T)) with
      | some q => toSeriesIter q.1 q.2
      | none => ([] : List (List Nat × List α))).filter (fun p => decide (p.1 = c)) =
      [(c, (List.range T).map (fun t => vol t c))] := by
  obtain ⟨A, hbf, hsh, hdata⟩ := canonical_assembled dims T vol bs hT
  rw [hbf]
  show (toSeriesIter (⟨T :: dims, slNone :: bs⟩ : ImageBlocksGroupingKey) A).filter
    (fun p => decide (p.1 = c)) = _
  rw [show toSeriesIter (⟨T :: dims, slNone :: bs⟩ : ImageBlocksGroupingKey) A =
    (listProd ((bs.zip dims).map (fun p => sliceIndices p.1 p.2)).reverse).map
      (fun s => (s.reverse, (List.range (A.shape.headD 0)).map
        (fun t => A.data (t :: (s.reverse.zip bs).map (fun p => localStart p.1 p.2)))))
    from rfl]
  rw [List.filter_map]
  have hcong : (listProd ((bs.zip dims).map (fun p => sliceIndices p.1 p.2)).reverse).filter
      ((fun p => decide (p.1 = c)) ∘ (fun s => (s.reverse,
        (List.range (A.shape.headD 0)).map
          (fun t => A.data (t :: (s.reverse.zip bs).map (fun p => localStart p.1 p.2)))))) =
      (listProd ((bs.zip dims).map (fun p => sliceIndices p.1 p.2)).reverse).filter
        (fun s => decide (s = c.reverse)) := by
    apply List.filter_congr
    intro s _
    show decide (s.reverse = c) = decide (s = c.reverse)
    rw [decide_eq_decide]
    exact List.reverse_eq_iff
  rw [hcong]
  have hmem : c.reverse ∈
      listProd ((bs.zip dims).map (fun p => sliceIndices p.1 p.2)).reverse := by
    rw [listProd_mem]
    exact List.forall₂_reverse_iff.mpr (List.forall₂_map_right_iff.mpr hcov)
  have hnd : (listProd ((bs.zip dims).map (fun p => sliceIndices p.1 p.2)).reverse).Nodup := by
    apply listProd_nodup
    intro xs hxs
    rw [List.mem_reverse] at hxs
    obtain ⟨p, _, rfl⟩ := List.mem_map.mp hxs
    exact sliceIndices_nodup p.1 p.2
  rw [nodup_filter_eq_of_mem _ c.reverse hmem hnd]
  simp only [List.map_cons, List.map_nil, List.reverse_reverse]
  rw [hsh]
  have hser : (List.range T).map
      (fun t => A.data (t :: (c.zip bs).map (fun p => localStart p.1 p.2))) =
      (List.range T).map (fun t => vol t c) := by
    apply List.map_congr_left
    intro t ht
    rw [hdata t (List.mem_range.mp ht)]
    exact congrArg (vol t) (local_roundtrip c bs dims hcov hgood hl)
  rw [hser]

theorem canonical_series_filter_neg {α : Type} [Zero α] (dims : List Nat) (T : Nat)
    (vol : Nat → List Nat → α) (c : List Nat) (bs : List PySlice) (hT : 0 < T)
    (hncov : ¬ List.Forall₂ (fun x p => x ∈ sliceIndices p.1 p.2) c (bs.zip dims)) :
    ((match blockingFunction ((List.range T).map (fun t =>
        extractBlockFromImage ⟨dims, vol t⟩ bs t T)) with
      | some q => toSeriesIter q.1 q.2
      | none => []) : List (List Nat × List α)).filter (fun p => decide (p.1 = c)) = [] := by
  obtain ⟨A, hbf, _, _⟩ := canonical_assembled dims T vol bs hT
  rw [hbf]
  show (toSeriesIter (⟨T :: dims, slNone :: bs⟩ : ImageBlocksGroupingKey) A).filter
    (fun p => decide (p.1 = c)) = _
  rw [show toSeriesIter (⟨T :: dims, slNone :: bs⟩ : ImageBlocksGroupingKey) A =
    (listProd ((bs.zip dims).map (fun p => sliceIndices p.1 p.2)).reverse).map
      (fun s => (s.reverse, (List.range (A.shape.headD 0)).map
        (fun t => A.data (t :: (s.reverse.zip bs).map (fun p => localStart p.1 p.2)))))
    from rfl]
  rw [List.filter_eq_nil_iff]
  intro p hp
  obtain ⟨s, hs, rfl⟩ := List.mem_map.mp hp
  simp only [decide_eq_true_eq]
  intro he
  apply hncov
  have hs2 : s = c.reverse := by rw [← he, List.reverse_reverse]
  subst hs2
  have hme := (listProd_mem _ _).mp hs
  exact List.forall₂_map_right_iff.mp (List.forall₂_reverse_iff.mp hme)

/-- C1: the full pipeline round trip.  Extract blocks from every timepoint
with `partitionFunction`, group the pairs by `spatialKey`, merge every
group with `blockingFunction` and enumerate `(coordinate, series)` pairs
with `toSeriesIter`: for every spatial coordinate of the volume the result
contains exactly one pair for that coordinate, carrying exactly the
original value-over-time series. -/
theorem imagesToSeries_roundtrip {α : Type} [Zero α] (dims splits : List Nat) (T : Nat)
    (vol : Nat → List Nat → α) (c : List Nat)
    (hlen : splits.length = dims.length) (hT : 0 < T)
    (hv : ∀ i ∈ List.range dims.length,
      1 ≤ splits.getD i 0 ∧ splits.getD i 0 ≤ dims.getD i 0)
    (hc : c.length = dims.length)
    (hcb : ∀ i ∈ List.range dims.length, c.getD i 0 < dims.getD i 0) :
    (imagesToSeries dims splits T vol).filter (fun p => decide (p.1 = c)) =
      [(c, (List.range T).map (fun t => vol t c))] := by
  have hvF : List.Forall₂ (fun n d => 1 ≤ n ∧ n ≤ d) splits dims :=
    forall₂_of_getD _ 0 0 splits dims hlen hv
  have hcF : List.Forall₂ (fun x d => x < d) c dims :=
    forall₂_of_getD _ 0 0 c dims hc hcb
  obtain ⟨bs, hbsmem, hbscov⟩ := slices_locate_ex splits dims c hvF hcF
  have hkmem : bs.map (fun sl => sl.startD) ∈
      ((((List.range T).flatMap (fun t =>
          partitionFunction (generateSlices splits dims) T t ⟨dims, vol t⟩)).map
        (fun p => p.1.spatialKey)).dedup) := by
    rw [List.mem_dedup]
    apply List.mem_map.mpr
    refine ⟨extractBlockFromImage ⟨dims, vol 0⟩ bs 0 T, ?_, extract_spatialKey _ _ _ _⟩
    apply List.mem_flatMap.mpr
    refine ⟨0, List.mem_range.mpr hT, ?_⟩
    unfold partitionFunction
    exact List.mem_map.mpr ⟨bs, hbsmem, rfl⟩
  have hother : ∀ k ∈ (((List.range T).flatMap (fun t =>
        partitionFunction (generateSlices splits dims) T t ⟨dims, vol t⟩)).map
      (fun p => p.1.spatialKey)).dedup,
      k ≠ bs.map (fun sl => sl.startD) →
      ((match blockingFunction (((List.range T).flatMap (fun t =>
            partitionFunction (generateSlices splits dims) T t ⟨dims, vol t⟩)).filter
          (fun p => decide (p.1.spatialKey = k))) with
        | some q => toSeriesIter q.1 q.2
        | none => []) : List (List Nat × List α)).filter (fun p => decide (p.1 = c)) = [] := by
    intro k hk hne
    rw [List.mem_dedup] at hk
    obtain ⟨q, hq, rfl⟩ := List.mem_map.mp hk
    obtain ⟨t2, ht2, hq2⟩ := List.mem_flatMap.mp hq
    unfold partitionFunction at hq2
    obtain ⟨bs2, hbs2, rfl⟩ := List.mem_map.mp hq2
    rw [extract_spatialKey] at hne ⊢
    rw [group_filter_eq dims splits T vol bs2 hvF hbs2]
    apply canonical_series_filter_neg dims T vol c bs2 hT
    intro hcov2
    exact hne (by
      rw [slices_locate_unique splits dims c bs2 bs hvF hbs2 hbsmem hcov2 hbscov])
  simp only [imagesToSeries]
  rw [filter_flatMap_comm]
  rw [flatMap_eq_of_unique _ _ (bs.map (fun sl => sl.startD)) hkmem
    (List.nodup_dedup _) hother]
  rw [group_filter_eq dims splits T vol bs hvF hbsmem]
  exact canonical_series_filter_pos dims T vol c bs hT
    (listProd_slices_good splits dims bs hvF hbsmem)
    (listProd_slices_length splits dims bs hlen hbsmem) hbscov

theorem imagesToSeries_roundtrip_witness :
    (imagesToSeries [2] [1] 2 roundVolW).filter (fun p => decide (p.1 = [1])) =
      [([1], [roundVolW 0 [1], roundVolW 1 [1]])] :=
  imagesToSeries_roundtrip [2] [1] 2 roundVolW [1] rfl (by decide) (by decide) rfl
    (by decide)
